import Mathlib

/-!
Verification development for the `tidy` module (`src/files/tidy.py`): a
housekeeping utility that removes files (and optionally directories) under a
target path according to age / size / name-pattern criteria.

The embedding models:
* the criteria parser (`re.match("^(\d+)(s|m|h|d|w)?$", ...)` and the size
  variant) as a total function on strings, with `\d` read as ASCII digits and
  `str.lower` as per-character ASCII lowering;
* the filter chain `pfilter` / `agefilter` / `sizefilter` as pure predicates
  (timestamps and `time.time()` as integers);
* the filesystem as an inductive tree (`FSNode`); a `dir` node with
  `isLink = true` models a symlink whose target is a directory, carrying the
  followed `os.stat` metadata and the target's listing as its children
  (`os.walk` does not descend into such links, `os.path.isdir` is true for
  them);
* paths as component lists relative to the target, rendered to strings with
  `renderPath` (the target path is assumed fully qualified and normalized, as
  the module documentation requires, so `os.path.normpath(os.path.join ...)`
  is string concatenation with "/");
* the deletion loops as state transformers over `Option FSNode`, with a
  failure oracle `fails : List String → Bool` saying on which paths the
  removal syscall (`os.remove` / `shutil.rmtree`, including the `os.listdir`
  inside the same `try`) raises, and an oracle `errs` giving `str(e)`.
-/

set_option maxRecDepth 4000
set_option autoImplicit false

namespace Tidy

/-- Timestamp kinds selectable via the `timestamp` parameter. -/
inductive TSKind where
  | atime
  | mtime
  | ctime
deriving DecidableEq, Repr

/-- Stat metadata of a filesystem entry: `st_atime`, `st_mtime`, `st_ctime`
as integer seconds. -/
structure Meta where
  atime : Int
  mtime : Int
  ctime : Int
deriving DecidableEq, Repr

/-- `os.stat(path).st_<timestamp>` -/
def tsOf (m : Meta) : TSKind → Int
  | .atime => m.atime
  | .mtime => m.mtime
  | .ctime => m.ctime

/-- A filesystem tree.  `file name size meta` is a regular file (or a symlink
to one, with the followed stat); `dir name meta isLink children` is a
directory, or, when `isLink` is true, a symlink to a directory (children and
meta are the followed view of the target). -/
inductive FSNode where
  | file (name : String) (size : Nat) (meta : Meta)
  | dir (name : String) (meta : Meta) (isLink : Bool) (children : List FSNode)

def nodeName : FSNode → String
  | .file n _ _ => n
  | .dir n _ _ _ => n

def nodeMeta : FSNode → Meta
  | .file _ _ m => m
  | .dir _ m _ _ => m

def nodeSize : FSNode → Nat
  | .file _ s _ => s
  | .dir _ _ _ _ => 0

/-- `os.path.isdir` (true also for symlinks to directories). -/
def isDirN : FSNode → Bool
  | .file _ _ _ => false
  | .dir _ _ _ _ => true

/-- `os.path.isfile`. -/
def isFileN : FSNode → Bool
  | .file _ _ _ => true
  | .dir _ _ _ _ => false

/-- `os.path.islink` (only directory links are modelled). -/
def nodeIsLink : FSNode → Bool
  | .file _ _ _ => false
  | .dir _ _ l _ => l

/-- `os.listdir` result of a directory node. -/
def nodeChildren : FSNode → List FSNode
  | .file _ _ _ => []
  | .dir _ _ _ ch => ch

/-! ## Glob matching (`fnmatch.fnmatch`, POSIX: `normcase` is the identity)

`fnmatch.translate` turns `*` into `.*`, `?` into `.`, and a bracket
expression `[seq]` (with optional leading `!` negation, a `]` directly after
the opening position taken literally, and `a-b` ranges) into a regex class;
an unterminated `[` is a literal character.  `globMatch` implements that
matching directly. -/

/-- Scan a bracket expression body for the closing `]`; returns the content
before it and the remainder after it. -/
def splitOnRB : List Char → Option (List Char × List Char)
  | [] => none
  | c :: cs =>
    if c = ']' then some ([], cs)
    else
      match splitOnRB cs with
      | some (inner, rest) => some (c :: inner, rest)
      | none => none

theorem splitOnRB_length : ∀ {cs inner rest : List Char},
    splitOnRB cs = some (inner, rest) → rest.length < cs.length := by
  intro cs
  induction cs with
  | nil => intro inner rest h; simp [splitOnRB] at h
  | cons c cs ih =>
    intro inner rest h
    unfold splitOnRB at h
    split at h
    · simp only [Option.some.injEq, Prod.mk.injEq] at h
      obtain ⟨rfl, rfl⟩ := h
      simp
    · split at h
      · rename_i i r heq
        simp only [Option.some.injEq, Prod.mk.injEq] at h
        obtain ⟨rfl, rfl⟩ := h
        have := ih heq
        simp only [List.length_cons]
        omega
      · exact absurd h (by simp)

/-- Class body scan: a `]` directly after the (possibly negated) opening is
taken literally, then the body runs to the next `]`. -/
def parseClassCore (q : List Char) : Option (List Char × List Char) :=
  match q with
  | ']' :: q' =>
    match splitOnRB q' with
    | some (inner, rest) => some (']' :: inner, rest)
    | none => none
  | _ => splitOnRB q

/-- Parse the body of a bracket expression that begins right after `[`:
returns (negated?, class content, rest of the pattern), or `none` when there
is no closing `]` (in which case `[` is a literal). -/
def parseClass (p : List Char) : Option (Bool × List Char × List Char) :=
  match p with
  | '!' :: q => (parseClassCore q).map (fun ir => (true, ir.1, ir.2))
  | _ => (parseClassCore p).map (fun ir => (false, ir.1, ir.2))

theorem parseClassCore_length {q inner rest : List Char}
    (h : parseClassCore q = some (inner, rest)) : rest.length < q.length := by
  unfold parseClassCore at h
  split at h
  · split at h
    · rename_i i r heq
      simp only [Option.some.injEq, Prod.mk.injEq] at h
      obtain ⟨rfl, rfl⟩ := h
      have := splitOnRB_length heq
      simp only [List.length_cons]
      omega
    · exact absurd h (by simp)
  · exact splitOnRB_length h

theorem parseClass_length {p : List Char} {neg : Bool} {items rest : List Char}
    (h : parseClass p = some (neg, items, rest)) : rest.length < p.length := by
  unfold parseClass at h
  split at h
  · rename_i q
    cases hs : parseClassCore q with
    | none => rw [hs] at h; exact absurd h (by simp)
    | some pr =>
      rw [hs] at h
      obtain ⟨i, r⟩ := pr
      simp only [Option.map_some', Option.some.injEq, Prod.mk.injEq] at h
      obtain ⟨h1, h2, rfl⟩ := h
      have := parseClassCore_length hs
      simp only [List.length_cons]
      omega
  · cases hs : parseClassCore p with
    | none => rw [hs] at h; exact absurd h (by simp)
    | some pr =>
      rw [hs] at h
      obtain ⟨i, r⟩ := pr
      simp only [Option.map_some', Option.some.injEq, Prod.mk.injEq] at h
      exact h.2.2 ▸ parseClassCore_length hs

/-- Membership in a bracket-expression body: `a-b` spans are ranges over code
points, everything else is literal (a `-` without both endpoints is literal). -/
def inClass : List Char → Char → Bool
  | [], _ => false
  | a :: '-' :: b :: rest, c => (a ≤ c && c ≤ b) || inClass rest c
  | a :: rest, c => (a = c) || inClass rest c

/-- `fnmatch.translate`-style matching of a glob pattern (first argument)
against a whole name (second argument). -/
def globMatch : List Char → List Char → Bool
  | [], [] => true
  | [], _ :: _ => false
  | '*' :: p, [] => globMatch p []
  | '*' :: p, c :: n => globMatch p (c :: n) || globMatch ('*' :: p) n
  | '?' :: _, [] => false
  | '?' :: p, _ :: n => globMatch p n
  | '[' :: p, n =>
    match hpc : parseClass p with
    | some (neg, items, rest) =>
      match n with
      | [] => false
      | c :: nt => (inClass items c != neg) && globMatch rest nt
    | none =>
      match n with
      | [] => false
      | c :: nt => (c = '[') && globMatch p nt
  | a :: p, [] => false
  | a :: p, c :: n => (a = c) && globMatch p n
termination_by p n => (p.length, n.length)
decreasing_by
  · exact Prod.Lex.left _ _ (by simp)
  · exact Prod.Lex.left _ _ (by simp)
  · exact Prod.Lex.right _ (by simp)
  · exact Prod.Lex.left _ _ (by simp)
  · exact Prod.Lex.left _ _ (by
      have := parseClass_length hpc
      simp only [List.length_cons]
      omega)
  · exact Prod.Lex.left _ _ (by simp)
  · exact Prod.Lex.left _ _ (by simp)

/-- `fnmatch.fnmatch(f, p)` on a POSIX system (`normcase` is the identity). -/
def fnmatch (f p : String) : Bool := globMatch p.data f.data

/-- `pfilter(f, pattern)` from `src/files/tidy.py`: glob-pattern name filter;
`None` matches everything, otherwise any of the patterns must match. -/
def pfilter (f : String) (pattern : Option (List String)) : Bool :=
  match pattern with
  | none => true
  | some ps => ps.any fun p => fnmatch f p

/-- `agefilter(path, age, timestamp)`: true iff `age == 0` or
`time.time() - os.stat(path).st_<timestamp> >= age`.  `now` stands for
`time.time()`, `m` for the stat result of the path. -/
def agefilter (now : Int) (m : Meta) (age : Nat) (timestamp : TSKind) : Bool :=
  (age == 0) || decide (now - tsOf m timestamp ≥ (age : Int))

/-- `sizefilter(path, size)`: true iff `size == 0` or
`os.stat(path).st_size >= size`.  `sz` is the stat size of the path. -/
def sizefilter (sz : Nat) (size : Nat) : Bool :=
  (size == 0) || decide (sz ≥ size)

/-! ## Criteria parsing

`main` converts the raw `age` string via
`re.match("^(\d+)(s|m|h|d|w)?$", params['age'].lower())` and multiplies the
integer part by the unit from `seconds_per_unit` (`dict.get` with default 1
when the optional group is absent); analogously `size` with
`"^(\d+)(b|k|m|g|t)?$"` and `bytes_per_unit`.  `\d` is modelled as ASCII
digits and `str.lower` as per-character ASCII lowering. -/

/-- `int()` on a digit string. -/
def intOfDigits (ds : List Char) : Nat :=
  ds.foldl (fun a c => a * 10 + (c.toNat - 48)) 0

/-- `seconds_per_unit` -/
def ageUnits : Char → Option Nat
  | 's' => some 1
  | 'm' => some 60
  | 'h' => some 3600
  | 'd' => some 86400
  | 'w' => some 604800
  | _ => none

/-- `bytes_per_unit` -/
def sizeUnits : Char → Option Nat
  | 'b' => some 1
  | 'k' => some 1024
  | 'm' => some (1024 ^ 2)
  | 'g' => some (1024 ^ 3)
  | 't' => some (1024 ^ 4)
  | _ => none

/-- `s.lower()` as a character list. -/
def lowerChars (s : String) : List Char := s.data.map Char.toLower

/-- `re.match("^(\d+)(u1|…|uk)?$", s.lower())` followed by
`int(m.group(1)) * units.get(m.group(2), 1)`; `none` when the regex does not
match (the module then calls `fail_json`). -/
def matchCrit (units : Char → Option Nat) (s : String) : Option Nat :=
  if ((lowerChars s).takeWhile Char.isDigit).isEmpty then none
  else
    match (lowerChars s).dropWhile Char.isDigit with
    | [] => some (intOfDigits ((lowerChars s).takeWhile Char.isDigit))
    | [u] =>
      match units u with
      | some k => some (intOfDigits ((lowerChars s).takeWhile Char.isDigit) * k)
      | none => none
    | _ => none

/-! ## Parameters and selection -/

/-- The validated parameter record used past criteria parsing: `age` and
`size` already converted to seconds/bytes. -/
structure Crit where
  path : String
  age : Nat
  size : Nat
  matchPats : Option (List String)
  recurse : Bool
  rmdirs : Bool
  force : Bool
  silent : Bool
  timestamp : TSKind

/-- The test applied to a directory child in the walk loop:
`pfilter(fsobj, matches) and agefilter(fsname, age, timestamp) and rmdirs`. -/
def dirPass (crit : Crit) (now : Int) (x : FSNode) : Bool :=
  pfilter (nodeName x) crit.matchPats &&
    agefilter now (nodeMeta x) crit.age crit.timestamp && crit.rmdirs

/-- The test applied to a file child in the walk loop:
`pfilter(fsobj, matches) and agefilter(...) and sizefilter(fsname, size)`. -/
def filePass (crit : Crit) (now : Int) (x : FSNode) : Bool :=
  pfilter (nodeName x) crit.matchPats &&
    agefilter now (nodeMeta x) crit.age crit.timestamp &&
    sizefilter (nodeSize x) crit.size

/-- One `os.walk` tuple's `for fsobj in dirs + files` loop: classify the
direct children of the current directory, producing (directory candidates,
file candidates) as singleton relative paths. -/
def classifyList (crit : Crit) (now : Int) : List FSNode → List (List String) × List (List String)
  | [] => ([], [])
  | x :: xs =>
    let r := classifyList crit now xs
    match x with
    | .dir _ _ _ _ => if dirPass crit now x then ([nodeName x] :: r.1, r.2) else r
    | .file _ _ _ => if filePass crit now x then (r.1, [nodeName x] :: r.2) else r

mutual
/-- The `os.walk(path)` loop over the children `cs` of the current directory:
the current tuple's children are classified; when `recurse` is false the loop
`break`s after the first tuple, otherwise the walk descends (top-down, not
following directory symlinks) into every subdirectory regardless of its own
candidacy.  Paths are relative to the walk root. -/
def walkRel (crit : Crit) (now : Int) (cs : List FSNode) :
    List (List String) × List (List String) :=
  let here := classifyList crit now cs
  if crit.recurse then
    let sub := walkSubs crit now cs
    (here.1 ++ sub.1, here.2 ++ sub.2)
  else here
termination_by (sizeOf cs, 1)
decreasing_by
  exact Prod.Lex.right _ (by omega)

/-- Walk tuples contributed by the subtrees of the children, in child order. -/
def walkSubs (crit : Crit) (now : Int) : List FSNode → List (List String) × List (List String)
  | [] => ([], [])
  | x :: xs =>
    let r := match x with
      | .dir n _ false ch =>
        let w := walkRel crit now ch
        (w.1.map (n :: ·), w.2.map (n :: ·))
      | _ => (([] : List (List String)), ([] : List (List String)))
    let rs := walkSubs crit now xs
    (r.1 ++ rs.1, r.2 ++ rs.2)
termination_by cs => (sizeOf cs, 0)
decreasing_by
  · exact Prod.Lex.left _ _ (by simp; omega)
  · exact Prod.Lex.left _ _ (by simp)
end

/-- `os.path.basename`: the part after the last `/`. -/
def afterLastSlash (cs : List Char) : List Char :=
  cs.foldl (fun acc c => if c = '/' then [] else acc ++ [c]) []

def basename (s : String) : String := String.mk (afterLastSlash s.data)

/-- The selector: `if os.path.isdir(path): walk … elif os.path.isfile(path):
filter the single file`.  Candidate paths are component lists relative to the
target (`[]` is the target itself, possible only in the single-file case).
Returns (directory candidates, file candidates) in discovery order. -/
def selectCands (crit : Crit) (now : Int) (st : Option FSNode) :
    List (List String) × List (List String) :=
  match st with
  | some (.dir _ _ _ ch) => walkRel crit now ch
  | some (.file _ sz m) =>
    if pfilter (basename crit.path) crit.matchPats &&
        agefilter now m crit.age crit.timestamp && sizefilter sz crit.size
    then ([], [[]])
    else ([], [])
  | none => ([], [])

/-! ## Sorting (`files_to_delete.sort()`,
`dirs_to_delete.sort(reverse=not force)`) -/

/-- `os.path.normpath(os.path.join(base, …))` for a normalized, fully
qualified base: the rendered absolute path of a target-relative candidate. -/
def renderPath (base : String) : List String → String
  | [] => base
  | r :: rs => base ++ "/" ++ String.intercalate "/" (r :: rs)

/-- Python string `<=`: lexicographic comparison by code point. -/
def charsLe : List Char → List Char → Bool
  | [], _ => true
  | _ :: _, [] => false
  | a :: as, b :: bs => if a < b then true else if a = b then charsLe as bs else false

def strLe (a b : String) : Bool := charsLe a.data b.data

/-- Comparison of candidates by their rendered absolute path. -/
def relLe (base : String) (a b : List String) : Bool :=
  strLe (renderPath base a) (renderPath base b)

def insertLe {α : Type} (le : α → α → Bool) (x : α) : List α → List α
  | [] => [x]
  | y :: ys => if le x y then x :: y :: ys else y :: insertLe le x ys

/-- Stable ascending sort (insertion sort; extensionally the ascending
`list.sort()`). -/
def sortBy {α : Type} (le : α → α → Bool) : List α → List α
  | [] => []
  | x :: xs => insertLe le x (sortBy le xs)

/-- `files_to_delete` after `files_to_delete.sort()`. -/
def sortedFileCands (crit : Crit) (now : Int) (st : Option FSNode) : List (List String) :=
  sortBy (relLe crit.path) (selectCands crit now st).2

/-- `dirs_to_delete` after `dirs_to_delete.sort(reverse=not force)`. -/
def sortedDirCands (crit : Crit) (now : Int) (st : Option FSNode) : List (List String) :=
  let s := sortBy (relLe crit.path) (selectCands crit now st).1
  if crit.force then s else s.reverse

/-! ## Filesystem state operations -/

mutual
/-- Resolve a relative path inside a node (used for `os.path.exists`,
`os.listdir`, `os.path.islink`). -/
def findNode : FSNode → List String → Option FSNode
  | t, [] => some t
  | .file _ _ _, _ :: _ => none
  | .dir _ _ _ ch, c :: q => findIn ch c q

def findIn : List FSNode → String → List String → Option FSNode
  | [], _, _ => none
  | x :: xs, c, q => if nodeName x = c then findNode x q else findIn xs c q
end

def findSt : Option FSNode → List String → Option FSNode
  | none, _ => none
  | some t, rel => findNode t rel

mutual
/-- Remove the entry at a relative path (with its whole subtree): the state
effect of `os.remove` on a file or link, and of `shutil.rmtree`. -/
def removeAt : FSNode → List String → Option FSNode
  | _, [] => none
  | .file n s m, _ :: _ => some (.file n s m)
  | .dir n m l ch, c :: q => some (.dir n m l (removeIn ch c q))

def removeIn : List FSNode → String → List String → List FSNode
  | [], _, _ => []
  | x :: xs, c, q =>
    if nodeName x = c then
      match removeAt x q with
      | none => xs
      | some x' => x' :: xs
    else x :: removeIn xs c q
end

def removeAtSt : Option FSNode → List String → Option FSNode
  | none, _ => none
  | some t, rel => removeAt t rel

/-! ## Deletion loops -/

/-- Result of a deletion loop: final state and recorded deletions, or the
fatal abort (`fail_json`) with the state and deletions at that point and the
failing path. -/
inductive LoopRes where
  | ok (st : Option FSNode) (deleted : List (List String))
  | fatal (st : Option FSNode) (deleted : List (List String)) (failPath : List String)

/-- The file loop: `for f in files_to_delete: try: os.remove(f);
deleted_files.append(f) except: if silent: continue; else fail_json(...)`.
`fails f` says whether `os.remove` raises on the path `f`. -/
def delFiles (silent : Bool) (fails : List String → Bool) :
    Option FSNode → List (List String) → List (List String) → LoopRes
  | st, acc, [] => .ok st acc
  | st, acc, f :: rest =>
    if fails f then
      if silent then delFiles silent fails st acc rest
      else .fatal st acc f
    else delFiles silent fails (removeAtSt st f) (acc ++ [f]) rest

/-- What the directory loop body did for one candidate. -/
inductive DirAction where
  | skipMissing
  | skipNotEmpty
  | removeLink
  | removeTree
  | failSilent
  | failFatal
deriving DecidableEq, Repr

/-- Whether a removal was attempted (the body entered the branch that calls
`os.remove`/`shutil.rmtree`). -/
def isAttempt : DirAction → Bool
  | .skipMissing => false
  | .skipNotEmpty => false
  | _ => true

/-- Whether the body appended the path to `deleted_dirs`. -/
def recordsDel : DirAction → Bool
  | .removeLink => true
  | .removeTree => true
  | _ => false

/-- One iteration of the directory loop: `if os.path.exists(d): try: if force
or len(os.listdir(d)) == 0: (os.remove if islink else shutil.rmtree)(d)`.
`fails d` says whether the removal call raises on `d`. -/
def dirStep (force silent : Bool) (fails : List String → Bool)
    (st : Option FSNode) (d : List String) : DirAction × Option FSNode :=
  match findSt st d with
  | none => (.skipMissing, st)
  | some node =>
    if force || (nodeChildren node).isEmpty then
      if fails d then
        if silent then (.failSilent, st) else (.failFatal, st)
      else if nodeIsLink node then (.removeLink, removeAtSt st d)
      else (.removeTree, removeAtSt st d)
    else (.skipNotEmpty, st)

/-- The directory loop over `dirs_to_delete`. -/
def delDirs (force silent : Bool) (fails : List String → Bool) :
    Option FSNode → List (List String) → List (List String) → LoopRes
  | st, acc, [] => .ok st acc
  | st, acc, d :: rest =>
    match dirStep force silent fails st d with
    | (.failFatal, st') => .fatal st' acc d
    | (a, st') =>
      delDirs force silent fails st' (if recordsDel a then acc ++ [d] else acc) rest

/-! ## The driver (`main`) -/

/-- Outcome of a run: `exit_json` on success (with `deleted_files`,
`deleted_dirs`, `changed`), or the three `fail_json` sites. -/
inductive RunOutcome where
  | invalidAge (raw : String)
  | invalidSize (raw : String)
  | fatal (deletedFiles deletedDirs : List String) (path : String) (msg : String)
  | ok (deletedFiles deletedDirs : List String) (changed : Bool)
deriving DecidableEq, Repr

def fileFailMsg (e : String) : String := "failed to process file: " ++ e ++ " "

def dirFailMsg (e : String) : String := "failed to process directory: " ++ e ++ " "

/-- The part of `main` after criteria parsing: selection, sorting, check-mode
report or the two deletion loops.  Returns the outcome and the final
filesystem state; `errs` gives `str(e)` for a failing path. -/
def applyCore (crit : Crit) (now : Int) (checkMode : Bool) (st : Option FSNode)
    (fails : List String → Bool) (errs : List String → String) :
    RunOutcome × Option FSNode :=
  if checkMode then
    (.ok ((sortedFileCands crit now st).map (renderPath crit.path))
      ((sortedDirCands crit now st).map (renderPath crit.path))
      (decide (sortedFileCands crit now st ≠ [] ∨ sortedDirCands crit now st ≠ [])), st)
  else
    match delFiles crit.silent fails st [] (sortedFileCands crit now st) with
    | .fatal st1 df f =>
      (.fatal (df.map (renderPath crit.path)) [] (renderPath crit.path f)
        (fileFailMsg (errs f)), st1)
    | .ok st1 df =>
      match delDirs crit.force crit.silent fails st1 [] (sortedDirCands crit now st) with
      | .fatal st2 dd d =>
        (.fatal (df.map (renderPath crit.path)) (dd.map (renderPath crit.path))
          (renderPath crit.path d) (dirFailMsg (errs d)), st2)
      | .ok st2 dd =>
        (.ok (df.map (renderPath crit.path)) (dd.map (renderPath crit.path))
          (decide (df ≠ [] ∨ dd ≠ [])), st2)

/-- The raw parameter record handed over by the module harness. -/
structure RawParams where
  path : String
  age : String
  force : Bool
  matchPats : Option (List String)
  recurse : Bool
  rmdirs : Bool
  size : String
  timestamp : TSKind
  silent : Bool

def toCrit (p : RawParams) (age size : Nat) : Crit :=
  { path := p.path, age := age, size := size, matchPats := p.matchPats,
    recurse := p.recurse, rmdirs := p.rmdirs, force := p.force,
    silent := p.silent, timestamp := p.timestamp }

/-- `main`: parse the age and size criteria (failing the run on malformed
input, age first), then run the pipeline. -/
def tidyRun (p : RawParams) (checkMode : Bool) (now : Int) (st : Option FSNode)
    (fails : List String → Bool) (errs : List String → String) :
    RunOutcome × Option FSNode :=
  match matchCrit ageUnits p.age with
  | none => (.invalidAge p.age, st)
  | some age =>
    match matchCrit sizeUnits p.size with
    | none => (.invalidSize p.size, st)
    | some size => applyCore (toCrit p age size) now checkMode st fails errs

/-! ## Lemmas about the criteria parser -/

theorem toLower_of_isDigit {c : Char} (h : c.isDigit = true) : c.toLower = c := by
  simp [Char.isDigit, decide_eq_true_eq] at h
  have h9 : c.val.toNat ≤ 57 := UInt32.toNat_le_of_le (by norm_num) h.2
  simp [Char.toLower, Char.toNat]
  omega

theorem map_toLower_digits {ds : List Char} (h : ∀ c ∈ ds, c.isDigit = true) :
    ds.map Char.toLower = ds := by
  induction ds with
  | nil => rfl
  | cons c cs ih =>
    simp only [List.map_cons, List.cons.injEq]
    exact ⟨toLower_of_isDigit (h c (by simp)), ih fun x hx => h x (by simp [hx])⟩

theorem takeWhile_all_append {p : Char → Bool} :
    ∀ {l1 l2 : List Char}, (∀ a ∈ l1, p a = true) →
      (∀ b, l2.head? = some b → p b = false) →
      (l1 ++ l2).takeWhile p = l1 ∧ (l1 ++ l2).dropWhile p = l2 := by
  intro l1
  induction l1 with
  | nil =>
    intro l2 _ h2
    cases l2 with
    | nil => simp
    | cons b bs =>
      have := h2 b rfl
      simp [List.takeWhile, List.dropWhile, this]
  | cons a l1 ih =>
    intro l2 h1 h2
    have ha : p a = true := h1 a (by simp)
    have := ih (fun x hx => h1 x (by simp [hx])) h2
    simp [List.takeWhile, List.dropWhile, ha, this.1, this.2]

theorem ageUnits_not_digit {c : Char} {k : Nat} (h : ageUnits c = some k) :
    c.isDigit = false := by
  unfold ageUnits at h
  split at h <;> first | rfl | exact absurd h (by simp)

theorem sizeUnits_not_digit {c : Char} {k : Nat} (h : sizeUnits c = some k) :
    c.isDigit = false := by
  unfold sizeUnits at h
  split at h <;> first | rfl | exact absurd h (by simp)

/-- Parsing a pure digit string yields its integer value (unit defaults to
multiplier 1). -/
theorem matchCrit_digits (units : Char → Option Nat) {ds : List Char}
    (h1 : ds ≠ []) (h2 : ∀ c ∈ ds, c.isDigit = true) :
    matchCrit units (String.mk ds) = some (intOfDigits ds) := by
  unfold matchCrit lowerChars
  have hdata : (String.mk ds).data = ds := rfl
  rw [hdata, map_toLower_digits h2]
  have := @takeWhile_all_append Char.isDigit ds [] h2 (by simp)
  simp only [List.append_nil] at this
  rw [this.1, this.2]
  simp [List.isEmpty_iff, h1]

/-- Parsing digits followed by one recognised unit letter (case-insensitive)
yields the integer value times the unit's multiplier. -/
theorem matchCrit_unit (units : Char → Option Nat)
    (hnd : ∀ c k, units c = some k → c.isDigit = false)
    {ds : List Char} {u : Char} {k : Nat}
    (h1 : ds ≠ []) (h2 : ∀ c ∈ ds, c.isDigit = true)
    (hu : units u.toLower = some k) :
    matchCrit units (String.mk (ds ++ [u])) = some (intOfDigits ds * k) := by
  unfold matchCrit lowerChars
  have hdata : (String.mk (ds ++ [u])).data = ds ++ [u] := rfl
  rw [hdata, List.map_append, map_toLower_digits h2]
  have hnotd : u.toLower.isDigit = false := hnd _ _ hu
  have := @takeWhile_all_append Char.isDigit ds ([u].map Char.toLower) h2
    (by simpa using hnotd)
  rw [this.1, this.2]
  simp only [List.map_cons, List.map_nil, hu]
  simp [List.isEmpty_iff, h1]

/-- Modelled from the spec: the check `^\d+[a-z]?$` applied to the lowercased
raw criteria string (the spec's description of when parsing succeeds). -/
def specDigitsAlpha (s : String) : Bool :=
  !((lowerChars s).takeWhile Char.isDigit).isEmpty &&
    (match (lowerChars s).dropWhile Char.isDigit with
     | [] => true
     | [u] => 'a' ≤ u && u ≤ 'z'
     | _ => false)

/-- Shape of outcomes reachable once criteria parsing succeeded. -/
def isInvalid : RunOutcome → Bool
  | .invalidAge _ => true
  | .invalidSize _ => true
  | _ => false

theorem applyCore_not_invalid (crit : Crit) (now : Int) (ck : Bool)
    (st : Option FSNode) (fails : List String → Bool) (errs : List String → String) :
    isInvalid (applyCore crit now ck st fails errs).1 = false := by
  unfold applyCore
  split
  · rfl
  · split
    · rfl
    · split <;> rfl

/-- Full grammar characterization: parsing succeeds exactly on a nonempty
digit prefix followed by nothing or by a single recognised unit letter (on
the lowercased string). -/
theorem matchCrit_isSome_iff (units : Char → Option Nat)
    (hnd : ∀ c k, units c = some k → c.isDigit = false) (s : String) :
    (matchCrit units s).isSome = true ↔
      ∃ ds us, lowerChars s = ds ++ us ∧ ds ≠ [] ∧ (∀ c ∈ ds, c.isDigit = true) ∧
        (us = [] ∨ ∃ u k, us = [u] ∧ units u = some k) := by
  constructor
  · intro h
    unfold matchCrit at h
    by_cases he : ((lowerChars s).takeWhile Char.isDigit).isEmpty = true
    · rw [if_pos he] at h
      exact absurd h (by simp)
    · rw [if_neg he] at h
      refine ⟨(lowerChars s).takeWhile Char.isDigit, (lowerChars s).dropWhile Char.isDigit,
        (List.takeWhile_append_dropWhile _ _).symm, by simpa [List.isEmpty_iff] using he,
        fun c hc => List.mem_takeWhile_imp hc, ?_⟩
      cases hd : (lowerChars s).dropWhile Char.isDigit with
      | nil => exact Or.inl rfl
      | cons u us' =>
        rw [hd] at h
        cases us' with
        | nil =>
          cases hu : units u with
          | none => simp [hu] at h
          | some k => exact Or.inr ⟨u, k, rfl, hu⟩
        | cons v us'' => simp at h
  · rintro ⟨ds, us, hsplit, hne, hdig, hus⟩
    have hhead : ∀ b, us.head? = some b → b.isDigit = false := by
      rcases hus with rfl | ⟨u, k, rfl, hu⟩
      · intro b hb; simp at hb
      · intro b hb
        simp only [List.head?_cons, Option.some.injEq] at hb
        exact hb ▸ hnd u k hu
    have hsp := @takeWhile_all_append Char.isDigit ds us hdig hhead
    unfold matchCrit
    rw [hsplit, hsp.1, hsp.2]
    rw [if_neg (by simpa [List.isEmpty_iff] using hne)]
    rcases hus with rfl | ⟨u, k, rfl, hu⟩
    · simp
    · simp [hu]

/-! ## Claim C3: criteria parsing -/

/-- C3: for every raw age or size string consisting of digits optionally
followed by one unit letter (case-insensitive), the parser returns the
digits' integer value multiplied exactly by the unit multiplier — age units
s=1, m=60, h=3600, d=86400, w=604800 with seconds (1) as the default, size
units b=1, k=1024, m=1024², g=1024³, t=1024⁴ with bytes as the default — and
in particular "2d" ↦ 172800, "1W" ↦ 604800, "10" ↦ 10, size "10m" ↦ 10485760
and size "2G" ↦ 2147483648. -/
theorem c3_criteria_parsing :
    (∀ ds : List Char, ds ≠ [] → (∀ c ∈ ds, c.isDigit = true) →
      matchCrit ageUnits (String.mk ds) = some (intOfDigits ds)
      ∧ matchCrit sizeUnits (String.mk ds) = some (intOfDigits ds))
  ∧ (∀ (ds : List Char) (u : Char) (k : Nat), ds ≠ [] →
      (∀ c ∈ ds, c.isDigit = true) → ageUnits u.toLower = some k →
      matchCrit ageUnits (String.mk (ds ++ [u])) = some (intOfDigits ds * k))
  ∧ (∀ (ds : List Char) (u : Char) (k : Nat), ds ≠ [] →
      (∀ c ∈ ds, c.isDigit = true) → sizeUnits u.toLower = some k →
      matchCrit sizeUnits (String.mk (ds ++ [u])) = some (intOfDigits ds * k))
  ∧ ageUnits 's' = some 1 ∧ ageUnits 'm' = some 60 ∧ ageUnits 'h' = some 3600
  ∧ ageUnits 'd' = some 86400 ∧ ageUnits 'w' = some 604800
  ∧ sizeUnits 'b' = some 1 ∧ sizeUnits 'k' = some 1024
  ∧ sizeUnits 'm' = some 1048576 ∧ sizeUnits 'g' = some 1073741824
  ∧ sizeUnits 't' = some 1099511627776
  ∧ matchCrit ageUnits "2d" = some 172800
  ∧ matchCrit ageUnits "1W" = some 604800
  ∧ matchCrit ageUnits "10" = some 10
  ∧ matchCrit sizeUnits "10m" = some 10485760
  ∧ matchCrit sizeUnits "2G" = some 2147483648 := by
  refine ⟨fun ds h1 h2 => ⟨matchCrit_digits _ h1 h2, matchCrit_digits _ h1 h2⟩,
    fun ds u k h1 h2 hu =>
      matchCrit_unit _ (fun c k hk => ageUnits_not_digit hk) h1 h2 hu,
    fun ds u k h1 h2 hu =>
      matchCrit_unit _ (fun c k hk => sizeUnits_not_digit hk) h1 h2 hu,
    rfl, rfl, rfl, rfl, rfl, rfl, rfl, rfl, rfl, rfl, rfl, rfl, rfl, rfl, rfl⟩

/-- Witness for C3 at concrete inputs. -/
theorem c3_criteria_parsing_witness :
    matchCrit ageUnits (String.mk ['4', '2']) = some (intOfDigits ['4', '2'])
    ∧ matchCrit sizeUnits (String.mk (['4'] ++ ['K'])) = some (intOfDigits ['4'] * 1024) :=
  ⟨(c3_criteria_parsing.1 ['4', '2'] (by decide) (by decide)).1,
    c3_criteria_parsing.2.2.1 ['4'] 'K' 1024 (by decide) (by decide) (by decide)⟩

/-! ## Claim C4 (corrected): invalid criteria -/

/-- A concrete parameter record with the given raw age and size strings. -/
def rawParamsEx (a s : String) : RawParams :=
  { path := "/t", age := a, force := false, matchPats := none,
    recurse := false, rmdirs := false, size := s, timestamp := .atime,
    silent := false }

/-- C4 as stated is false: the claim says the run fails with `InvalidCriteria`
when **and only when** the lowercased raw string does not match `^\d+[a-z]?$`;
but `"2x"` matches that pattern and the run still fails (the code's regex only
accepts the unit letters `smhdw` resp. `bkmgt`). -/
theorem c4_counterexample :
    specDigitsAlpha "2x" = true
    ∧ matchCrit ageUnits "2x" = none
    ∧ tidyRun (rawParamsEx "2x" "0") false 0 none (fun _ => false) (fun _ => "")
      = (.invalidAge "2x", none) := by
  refine ⟨rfl, rfl, rfl⟩

/-- C4 (amended): the run fails with InvalidCriteria — surfacing the offending
raw value, with no deletion attempted — when and only when the raw age string,
after lowercasing, does not match `^\d+[smhdw]?$`, or the raw size string does
not match `^\d+[bkmgt]?$`; in particular "2x", "-1" and "" fail for both
criteria and are never silently defaulted. -/
theorem c4_invalid_criteria :
    (∀ (p : RawParams) (ck : Bool) (now : Int) (st : Option FSNode)
        (fails : List String → Bool) (errs : List String → String),
      isInvalid (tidyRun p ck now st fails errs).1 = true ↔
        (matchCrit ageUnits p.age = none ∨ matchCrit sizeUnits p.size = none))
  ∧ (∀ (p : RawParams) (ck : Bool) (now : Int) (st : Option FSNode)
        (fails : List String → Bool) (errs : List String → String),
      matchCrit ageUnits p.age = none →
        tidyRun p ck now st fails errs = (.invalidAge p.age, st))
  ∧ (∀ (p : RawParams) (ck : Bool) (now : Int) (st : Option FSNode)
        (fails : List String → Bool) (errs : List String → String) (a : Nat),
      matchCrit ageUnits p.age = some a → matchCrit sizeUnits p.size = none →
        tidyRun p ck now st fails errs = (.invalidSize p.size, st))
  ∧ (∀ s : String, matchCrit ageUnits s = none ↔
      ¬ ∃ ds us, lowerChars s = ds ++ us ∧ ds ≠ [] ∧
        (∀ c ∈ ds, c.isDigit = true) ∧
        (us = [] ∨ ∃ u k, us = [u] ∧ ageUnits u = some k))
  ∧ (∀ s : String, matchCrit sizeUnits s = none ↔
      ¬ ∃ ds us, lowerChars s = ds ++ us ∧ ds ≠ [] ∧
        (∀ c ∈ ds, c.isDigit = true) ∧
        (us = [] ∨ ∃ u k, us = [u] ∧ sizeUnits u = some k))
  ∧ matchCrit ageUnits "2x" = none ∧ matchCrit sizeUnits "2x" = none
  ∧ matchCrit ageUnits "-1" = none ∧ matchCrit sizeUnits "-1" = none
  ∧ matchCrit ageUnits "" = none ∧ matchCrit sizeUnits "" = none := by
  have hrun : ∀ (p : RawParams) (ck : Bool) (now : Int) (st : Option FSNode)
      (fails : List String → Bool) (errs : List String → String),
      isInvalid (tidyRun p ck now st fails errs).1 = true ↔
        (matchCrit ageUnits p.age = none ∨ matchCrit sizeUnits p.size = none) := by
    intro p ck now st fails errs
    unfold tidyRun
    cases ha : matchCrit ageUnits p.age with
    | none => simp [isInvalid, ha]
    | some a =>
      cases hs : matchCrit sizeUnits p.size with
      | none => simp [isInvalid, hs]
      | some sz => simp [applyCore_not_invalid, hs]
  refine ⟨hrun, ?_, ?_, ?_, ?_, rfl, rfl, rfl, rfl, rfl, rfl⟩
  · intro p ck now st fails errs ha
    unfold tidyRun
    rw [ha]
  · intro p ck now st fails errs a ha hs
    unfold tidyRun
    rw [ha, hs]
  · intro s
    rw [← Option.not_isSome_iff_eq_none,
      matchCrit_isSome_iff ageUnits (fun c k hk => ageUnits_not_digit hk) s]
  · intro s
    rw [← Option.not_isSome_iff_eq_none,
      matchCrit_isSome_iff sizeUnits (fun c k hk => sizeUnits_not_digit hk) s]

/-- Witness for C4 (amended) at a concrete input. -/
theorem c4_invalid_criteria_witness :
    tidyRun (rawParamsEx "7q" "0") true 5 none (fun _ => false) (fun _ => "")
      = (.invalidAge "7q", none) :=
  c4_invalid_criteria.2.1 _ true 5 none (fun _ => false) (fun _ => "") rfl

/-! ## Claim C9: filter neutrality and thresholds -/

/-- C9: `pfilter` accepts every basename when the pattern list is absent and
otherwise accepts exactly the basenames glob-matching at least one pattern
(e.g. "x.log" vs ["*.log"]); `agefilter` with age 0 accepts every entry
regardless of its timestamps; `sizefilter` with size 0 accepts every entry,
and with a positive size accepts exactly the entries of size ≥ the bound. -/
theorem c9_filter_neutrality :
    (∀ f, pfilter f none = true)
  ∧ (∀ f ps, pfilter f (some ps) = true ↔ ∃ p ∈ ps, fnmatch f p = true)
  ∧ pfilter "x.log" (some ["*.log"]) = true
  ∧ pfilter "x.txt" (some ["*.log"]) = false
  ∧ (∀ (now : Int) (m : Meta) (ts : TSKind), agefilter now m 0 ts = true)
  ∧ (∀ sz, sizefilter sz 0 = true)
  ∧ (∀ sz s, 0 < s → (sizefilter sz s = true ↔ s ≤ sz)) := by
  refine ⟨fun f => rfl, fun f ps => by simp [pfilter, List.any_eq_true],
    ?_, ?_, fun now m ts => rfl, fun sz => rfl, fun sz s hs => ?_⟩
  · simp [pfilter, fnmatch, globMatch, parseClass, parseClassCore, splitOnRB]
  · simp [pfilter, fnmatch, globMatch, parseClass, parseClassCore, splitOnRB]
  · simp [sizefilter, Nat.pos_iff_ne_zero.mp hs]

/-- Witness for C9 at concrete inputs. -/
theorem c9_filter_neutrality_witness :
    0 < 3 ∧ (sizefilter 5 3 = true ↔ 3 ≤ 5) :=
  ⟨by decide, c9_filter_neutrality.2.2.2.2.2.2 5 3 (by decide)⟩

/-! ## Sorting lemmas (claim C5) -/

theorem charsLe_total : ∀ a b : List Char, charsLe a b = true ∨ charsLe b a = true := by
  intro a
  induction a with
  | nil => intro b; exact Or.inl rfl
  | cons x xs ih =>
    intro b
    cases b with
    | nil => exact Or.inr rfl
    | cons y ys =>
      rcases lt_trichotomy x y with h | h | h
      · exact Or.inl (by simp [charsLe, h])
      · subst h
        rcases ih ys with h2 | h2
        · exact Or.inl (by simp [charsLe, h2])
        · exact Or.inr (by simp [charsLe, h2])
      · exact Or.inr (by simp [charsLe, h])

theorem charsLe_trans : ∀ {a b c : List Char},
    charsLe a b = true → charsLe b c = true → charsLe a c = true := by
  intro a
  induction a with
  | nil => intro b c _ _; rfl
  | cons x xs ih =>
    intro b c hab hbc
    cases b with
    | nil => simp [charsLe] at hab
    | cons y ys =>
      cases c with
      | nil => simp [charsLe] at hbc
      | cons z zs =>
        unfold charsLe at hab hbc ⊢
        by_cases hxy : x < y
        · by_cases hyz : y < z
          · simp [lt_trans hxy hyz]
          · simp only [if_pos hxy] at hab
            by_cases hyz2 : y = z
            · subst hyz2; simp [hxy]
            · simp [hyz, hyz2] at hbc
        · by_cases hxy2 : x = y
          · subst hxy2
            simp only [if_neg hxy, if_pos rfl] at hab
            by_cases hxz : x < z
            · simp [hxz]
            · by_cases hxz2 : x = z
              · subst hxz2
                simp only [if_neg hxz, if_pos rfl] at hbc ⊢
                exact ih hab hbc
              · simp [hxz, hxz2] at hbc
          · simp [hxy, hxy2] at hab

theorem relLe_total (base : String) (a b : List String) :
    relLe base a b = true ∨ relLe base b a = true :=
  charsLe_total _ _

theorem relLe_trans {base : String} {a b c : List String}
    (h1 : relLe base a b = true) (h2 : relLe base b c = true) :
    relLe base a c = true :=
  charsLe_trans h1 h2

theorem insertLe_perm {α : Type} (le : α → α → Bool) (x : α) :
    ∀ l : List α, (insertLe le x l).Perm (x :: l) := by
  intro l
  induction l with
  | nil => exact List.Perm.refl _
  | cons y ys ih =>
    unfold insertLe
    split
    · exact List.Perm.refl _
    · exact ((ih.cons y).trans (List.Perm.swap x y ys))

theorem sortBy_perm {α : Type} (le : α → α → Bool) :
    ∀ l : List α, (sortBy le l).Perm l := by
  intro l
  induction l with
  | nil => exact List.Perm.refl _
  | cons x xs ih => exact (insertLe_perm le x (sortBy le xs)).trans (ih.cons x)

theorem insertLe_pairwise {α : Type} {le : α → α → Bool}
    (htot : ∀ a b, le a b = true ∨ le b a = true)
    (htrans : ∀ {a b c}, le a b = true → le b c = true → le a c = true)
    (x : α) : ∀ {l : List α}, l.Pairwise (fun a b => le a b = true) →
      (insertLe le x l).Pairwise (fun a b => le a b = true) := by
  intro l
  induction l with
  | nil => intro _; simp [insertLe]
  | cons y ys ih =>
    intro h
    rw [List.pairwise_cons] at h
    unfold insertLe
    split
    · rename_i hxy
      rw [List.pairwise_cons]
      refine ⟨?_, List.pairwise_cons.mpr h⟩
      intro z hz
      rcases List.mem_cons.mp hz with rfl | hz2
      · exact hxy
      · exact htrans hxy (h.1 z hz2)
    · rename_i hxy
      have hyx : le y x = true := by
        rcases htot x y with h2 | h2
        · exact absurd h2 hxy
        · exact h2
      rw [List.pairwise_cons]
      refine ⟨?_, ih h.2⟩
      intro z hz
      rcases List.mem_cons.mp ((insertLe_perm le x ys).mem_iff.mp hz) with rfl | h3
      · exact hyx
      · exact h.1 z h3

theorem sortBy_pairwise {α : Type} {le : α → α → Bool}
    (htot : ∀ a b, le a b = true ∨ le b a = true)
    (htrans : ∀ {a b c}, le a b = true → le b c = true → le a c = true) :
    ∀ l : List α, (sortBy le l).Pairwise (fun a b => le a b = true) := by
  intro l
  induction l with
  | nil => simp [sortBy]
  | cons x xs ih => exact insertLe_pairwise htot htrans x ih

/-- Concrete criteria for the C5 example (target "/t", everything matched,
`rmdirs` and `recurse` on). -/
def critC5 (force : Bool) : Crit :=
  { path := "/t", age := 0, size := 0, matchPats := none, recurse := true,
    rmdirs := true, force := force, silent := false, timestamp := .atime }

def metaZero : Meta := ⟨0, 0, 0⟩

/-- Concrete tree for the C5 example: `/t` containing `a` containing `b`. -/
def stC5 : Option FSNode :=
  some (.dir "t" metaZero false [.dir "a" metaZero false [.dir "b" metaZero false []]])

/-- C5: after selection, the file-candidate list is sorted ascending
lexicographically by rendered path (and is a permutation of the file
candidates), and the directory-candidate list is sorted ascending when
`force` is true and descending when `force` is false; concretely, the tree
`/t/a`, `/t/a/b` yields directory order ["/t/a/b", "/t/a"] with `force=false`
and ["/t/a", "/t/a/b"] with `force=true`. -/
theorem c5_sorting :
    (∀ (crit : Crit) (now : Int) (st : Option FSNode),
      (sortedFileCands crit now st).Pairwise (fun a b => relLe crit.path a b = true)
      ∧ (sortedFileCands crit now st).Perm (selectCands crit now st).2)
  ∧ (∀ (crit : Crit) (now : Int) (st : Option FSNode), crit.force = true →
      (sortedDirCands crit now st).Pairwise (fun a b => relLe crit.path a b = true)
      ∧ (sortedDirCands crit now st).Perm (selectCands crit now st).1)
  ∧ (∀ (crit : Crit) (now : Int) (st : Option FSNode), crit.force = false →
      (sortedDirCands crit now st).Pairwise (fun a b => relLe crit.path b a = true)
      ∧ (sortedDirCands crit now st).Perm (selectCands crit now st).1)
  ∧ (applyCore (critC5 false) 0 true stC5 (fun _ => false) (fun _ => "")).1
      = .ok [] ["/t/a/b", "/t/a"] true
  ∧ (applyCore (critC5 true) 0 true stC5 (fun _ => false) (fun _ => "")).1
      = .ok [] ["/t/a", "/t/a/b"] true := by
  refine ⟨?_, ?_, ?_, ?_, ?_⟩
  · intro crit now st
    exact ⟨sortBy_pairwise (relLe_total crit.path) (fun h1 h2 => relLe_trans h1 h2) _,
      sortBy_perm _ _⟩
  · intro crit now st hf
    unfold sortedDirCands
    rw [hf]
    exact ⟨sortBy_pairwise (relLe_total crit.path) (fun h1 h2 => relLe_trans h1 h2) _,
      sortBy_perm _ _⟩
  · intro crit now st hf
    unfold sortedDirCands
    rw [hf]
    simp only [Bool.false_eq_true, if_false]
    constructor
    · rw [List.pairwise_reverse]
      exact sortBy_pairwise (relLe_total crit.path) (fun h1 h2 => relLe_trans h1 h2) _
    · exact (List.reverse_perm _).trans (sortBy_perm _ _)
  · simp [applyCore, critC5, stC5, sortedFileCands, sortedDirCands, selectCands,
      walkRel, walkSubs, classifyList, dirPass, filePass, pfilter, agefilter,
      sizefilter, sortBy, insertLe, relLe, strLe, charsLe, renderPath, metaZero,
      nodeName, String.intercalate]
    exact ⟨rfl, rfl⟩
  · simp [applyCore, critC5, stC5, sortedFileCands, sortedDirCands, selectCands,
      walkRel, walkSubs, classifyList, dirPass, filePass, pfilter, agefilter,
      sizefilter, sortBy, insertLe, relLe, strLe, charsLe, renderPath, metaZero,
      nodeName, String.intercalate]
    exact ⟨rfl, rfl⟩

/-- Witness for C5 at a concrete input. -/
theorem c5_sorting_witness :
    (sortedDirCands (critC5 true) 0 stC5).Pairwise
      (fun a b => relLe (critC5 true).path a b = true) :=
  (c5_sorting.2.1 (critC5 true) 0 stC5 rfl).1

/-! ## Claim C2: deletion failure policy -/

/-- Folding successful removals over the state. -/
def removeList (st : Option FSNode) (l : List (List String)) : Option FSNode :=
  l.foldl removeAtSt st

/-- The silent file loop never aborts: it deletes exactly the non-failing
candidates, in order, and records exactly those. -/
theorem delFiles_silent (fails : List String → Bool) :
    ∀ (l : List (List String)) (st : Option FSNode) (acc : List (List String)),
      delFiles true fails st acc l =
        .ok (removeList st (l.filter (fun f => !fails f)))
          (acc ++ l.filter (fun f => !fails f)) := by
  intro l
  induction l with
  | nil => intro st acc; simp [delFiles, removeList]
  | cons f rest ih =>
    intro st acc
    unfold delFiles
    cases hf : fails f with
    | true => simp [hf, ih, removeList]
    | false => simp [hf, ih, removeList, List.append_assoc]

theorem dirStep_silent_not_fatal (force : Bool) (fails : List String → Bool)
    (st : Option FSNode) (d : List String) :
    (dirStep force true fails st d).1 ≠ .failFatal := by
  unfold dirStep
  split
  · simp
  · split
    · split
      · simp
      · split <;> simp
    · simp

/-- The silent directory loop never aborts. -/
theorem delDirs_silent_ok (force : Bool) (fails : List String → Bool) :
    ∀ (l : List (List String)) (st : Option FSNode) (acc : List (List String)),
      ∃ st2 dd, delDirs force true fails st acc l = .ok st2 dd := by
  intro l
  induction l with
  | nil => intro st acc; exact ⟨st, acc, rfl⟩
  | cons d rest ih =>
    intro st acc
    unfold delDirs
    cases hs : dirStep force true fails st d with
    | mk a st2 =>
      cases a with
      | failFatal => exact absurd (by rw [hs]) (dirStep_silent_not_fatal force fails st d)
      | skipMissing => simpa using ih st2 acc
      | skipNotEmpty => simpa using ih st2 acc
      | removeLink => simpa using ih st2 (acc ++ [d])
      | removeTree => simpa using ih st2 (acc ++ [d])
      | failSilent => simpa using ih st2 acc

/-- Concrete criteria for the C2 scenarios (flat scan of "/t"). -/
def critC2 (silent : Bool) : Crit :=
  { path := "/t", age := 0, size := 0, matchPats := none, recurse := false,
    rmdirs := false, force := false, silent := silent, timestamp := .atime }

/-- Three files, one of which (`f2`) cannot be removed. -/
def stC2 : Option FSNode :=
  some (.dir "t" metaZero false
    [.file "f1" 0 metaZero, .file "f2" 0 metaZero, .file "f3" 0 metaZero])

def failsOn (bad : List String) : List String → Bool := fun d => d = bad

/-- C2: for every candidate whose removal attempt fails, with `silent` the
failure is swallowed (not recorded, loop continues, remaining deletable
candidates are still deleted, no fatal outcome ever), and without `silent`
the loop aborts at once as a fatal failure carrying exactly the files and
directories deleted so far, the failing path and the underlying error
description, attempting no later candidate; concretely, with one undeletable
file among three, `silent` deletes the other two with `changed = true`, and
without `silent` an undeletable first file aborts with no file deleted. -/
theorem c2_failure_policy :
    (∀ (fails : List String → Bool) (st : Option FSNode)
        (acc : List (List String)) (f : List String) (rest : List (List String)),
      fails f = true →
        delFiles true fails st acc (f :: rest) = delFiles true fails st acc rest)
  ∧ (∀ (fails : List String → Bool) (st : Option FSNode)
        (acc : List (List String)) (f : List String) (rest : List (List String)),
      fails f = true → delFiles false fails st acc (f :: rest) = .fatal st acc f)
  ∧ (∀ (fails : List String → Bool) (l : List (List String)) (st : Option FSNode)
        (acc : List (List String)),
      delFiles true fails st acc l =
        .ok (removeList st (l.filter (fun f => !fails f)))
          (acc ++ l.filter (fun f => !fails f)))
  ∧ (∀ (force : Bool) (fails : List String → Bool) (st : Option FSNode)
        (acc : List (List String)) (d : List String) (rest : List (List String))
        (node : FSNode),
      findSt st d = some node → (force || (nodeChildren node).isEmpty) = true →
      fails d = true →
        delDirs force true fails st acc (d :: rest) = delDirs force true fails st acc rest)
  ∧ (∀ (force : Bool) (fails : List String → Bool) (st : Option FSNode)
        (acc : List (List String)) (d : List String) (rest : List (List String))
        (node : FSNode),
      findSt st d = some node → (force || (nodeChildren node).isEmpty) = true →
      fails d = true →
        delDirs force false fails st acc (d :: rest) = .fatal st acc d)
  ∧ (∀ (crit : Crit) (now : Int) (st st1 : Option FSNode)
        (fails : List String → Bool) (errs : List String → String)
        (df : List (List String)) (f : List String),
      delFiles crit.silent fails st [] (sortedFileCands crit now st) = .fatal st1 df f →
        applyCore crit now false st fails errs =
          (.fatal (df.map (renderPath crit.path)) [] (renderPath crit.path f)
            (fileFailMsg (errs f)), st1))
  ∧ (∀ (crit : Crit) (now : Int) (st st1 st2 : Option FSNode)
        (fails : List String → Bool) (errs : List String → String)
        (df dd : List (List String)) (d : List String),
      delFiles crit.silent fails st [] (sortedFileCands crit now st) = .ok st1 df →
      delDirs crit.force crit.silent fails st1 [] (sortedDirCands crit now st)
        = .fatal st2 dd d →
        applyCore crit now false st fails errs =
          (.fatal (df.map (renderPath crit.path)) (dd.map (renderPath crit.path))
            (renderPath crit.path d) (dirFailMsg (errs d)), st2))
  ∧ (∀ (crit : Crit) (now : Int) (ck : Bool) (st : Option FSNode)
        (fails : List String → Bool) (errs : List String → String)
        (dF dD : List String) (pa ms : String),
      crit.silent = true →
        (applyCore crit now ck st fails errs).1 ≠ .fatal dF dD pa ms)
  ∧ applyCore (critC2 true) 0 false stC2 (failsOn ["f2"]) (fun _ => "busy")
      = (.ok ["/t/f1", "/t/f3"] [] true, some (.dir "t" metaZero false [.file "f2" 0 metaZero]))
  ∧ applyCore (critC2 false) 0 false stC2 (failsOn ["f1"]) (fun _ => "busy")
      = (.fatal [] [] "/t/f1" "failed to process file: busy ", stC2) := by
  refine ⟨?_, ?_, fun fails l st acc => delFiles_silent fails l st acc, ?_, ?_, ?_, ?_, ?_, ?_, ?_⟩
  · intro fails st acc f rest hf
    conv_lhs => unfold delFiles
    simp [hf]
  · intro fails st acc f rest hf
    unfold delFiles
    simp [hf]
  · intro force fails st acc d rest node hfind hcond hf
    have hstep : dirStep force true fails st d = (.failSilent, st) := by
      unfold dirStep
      rw [hfind]
      simp [hcond, hf]
    conv_lhs => unfold delDirs
    rw [hstep]
    simp [recordsDel]
  · intro force fails st acc d rest node hfind hcond hf
    have hstep : dirStep force false fails st d = (.failFatal, st) := by
      unfold dirStep
      rw [hfind]
      simp [hcond, hf]
    conv_lhs => unfold delDirs
    rw [hstep]
  · intro crit now st st1 fails errs df f hloop
    unfold applyCore
    rw [if_neg (by simp)]
    rw [hloop]
  · intro crit now st st1 st2 fails errs df dd d h1 h2
    unfold applyCore
    rw [if_neg (by simp)]
    rw [h1]
    dsimp only
    rw [h2]
  · intro crit now ck st fails errs dF dD pa ms hsil
    unfold applyCore
    split
    · simp
    · rw [hsil, delFiles_silent]
      obtain ⟨st2, dd, h2⟩ := delDirs_silent_ok crit.force fails
        (sortedDirCands crit now st)
        (removeList st ((sortedFileCands crit now st).filter (fun f => !fails f))) []
      dsimp only
      rw [h2]
      simp
  · simp [applyCore, critC2, stC2, sortedFileCands, sortedDirCands, selectCands,
      walkRel, walkSubs, classifyList, dirPass, filePass, pfilter, agefilter,
      sizefilter, sortBy, insertLe, relLe, strLe, charsLe, renderPath, metaZero,
      nodeName, delFiles, delDirs, failsOn, removeAtSt, removeAt, removeIn,
      String.intercalate]
    exact ⟨rfl, rfl⟩
  · simp [applyCore, critC2, stC2, sortedFileCands, sortedDirCands, selectCands,
      walkRel, walkSubs, classifyList, dirPass, filePass, pfilter, agefilter,
      sizefilter, sortBy, insertLe, relLe, strLe, charsLe, renderPath, metaZero,
      nodeName, delFiles, delDirs, failsOn, removeAtSt, removeAt, removeIn,
      fileFailMsg, String.intercalate]
    exact rfl

/-- Witness for C2 at concrete inputs. -/
theorem c2_failure_policy_witness :
    delFiles false (failsOn ["g"]) (some (.dir "t" metaZero false [])) [] [["g"]]
      = .fatal (some (.dir "t" metaZero false [])) [] ["g"] :=
  c2_failure_policy.2.1 (failsOn ["g"]) (some (.dir "t" metaZero false [])) [] ["g"] []
    (by simp [failsOn])

/-! ## Claim C7: check mode -/

/-- C7: in check mode no removal is attempted — the filesystem state is
returned unchanged and the outcome is never a deletion failure; the reported
`deleted_files` and `deleted_dirs` are the full sorted candidate lists, and
`changed` is true iff at least one of the two lists is nonempty (also lifted
to the full run once criteria parsing succeeds). -/
theorem c7_check_mode :
    (∀ (crit : Crit) (now : Int) (st : Option FSNode)
        (fails : List String → Bool) (errs : List String → String),
      (applyCore crit now true st fails errs).2 = st)
  ∧ (∀ (crit : Crit) (now : Int) (st : Option FSNode)
        (fails : List String → Bool) (errs : List String → String)
        (dF dD : List String) (pa ms : String),
      (applyCore crit now true st fails errs).1 ≠ .fatal dF dD pa ms)
  ∧ (∀ (crit : Crit) (now : Int) (st : Option FSNode)
        (fails : List String → Bool) (errs : List String → String),
      (applyCore crit now true st fails errs).1
        = .ok ((sortedFileCands crit now st).map (renderPath crit.path))
            ((sortedDirCands crit now st).map (renderPath crit.path))
            (decide (sortedFileCands crit now st ≠ [] ∨ sortedDirCands crit now st ≠ [])))
  ∧ (∀ (p : RawParams) (now : Int) (st : Option FSNode)
        (fails : List String → Bool) (errs : List String → String),
      (tidyRun p true now st fails errs).2 = st)
  ∧ (∀ (p : RawParams) (now : Int) (st : Option FSNode)
        (fails : List String → Bool) (errs : List String → String)
        (dF dD : List String) (pa ms : String),
      (tidyRun p true now st fails errs).1 ≠ .fatal dF dD pa ms) := by
  have hcore : ∀ (crit : Crit) (now : Int) (st : Option FSNode)
      (fails : List String → Bool) (errs : List String → String),
      applyCore crit now true st fails errs
        = (.ok ((sortedFileCands crit now st).map (renderPath crit.path))
            ((sortedDirCands crit now st).map (renderPath crit.path))
            (decide (sortedFileCands crit now st ≠ [] ∨ sortedDirCands crit now st ≠ [])), st) := by
    intro crit now st fails errs
    unfold applyCore
    rw [if_pos rfl]
  refine ⟨fun crit now st fails errs => by rw [hcore],
    fun crit now st fails errs dF dD pa ms => by rw [hcore]; simp,
    fun crit now st fails errs => by rw [hcore],
    ?_, ?_⟩
  · intro p now st fails errs
    unfold tidyRun
    cases ha : matchCrit ageUnits p.age with
    | none => rfl
    | some a =>
      cases hs : matchCrit sizeUnits p.size with
      | none => rfl
      | some sz => simp only; rw [hcore]
  · intro p now st fails errs dF dD pa ms
    unfold tidyRun
    cases ha : matchCrit ageUnits p.age with
    | none => simp
    | some a =>
      cases hs : matchCrit sizeUnits p.size with
      | none => simp
      | some sz => simp only; rw [hcore]; simp

/-- Witness for C7 at a concrete input (check mode on the C2 tree reports
both full candidate lists and deletes nothing). -/
theorem c7_check_mode_witness :
    (applyCore (critC2 false) 0 true stC2 (failsOn ["f1"]) (fun _ => "")).2 = stC2 :=
  c7_check_mode.1 (critC2 false) 0 stC2 (failsOn ["f1"]) (fun _ => "")

/-! ## Walk characterization (claims C1, C10) -/

/-- The scope of the walk: `WalkVisits recurse cs rel x` says the walk over a
directory with children `cs` classifies the node `x` at relative path `rel` —
either a direct child, or (only with `recurse`) a node reached by descending
through a non-link subdirectory; descent is never conditioned on the
subdirectory's own candidacy. -/
inductive WalkVisits (recurse : Bool) : List FSNode → List String → FSNode → Prop
  | here {cs : List FSNode} {x : FSNode} : x ∈ cs → WalkVisits recurse cs [nodeName x] x
  | child {cs : List FSNode} {n : String} {m : Meta} {ch : List FSNode}
      {rel : List String} {y : FSNode} :
      FSNode.dir n m false ch ∈ cs → recurse = true → WalkVisits recurse ch rel y →
      WalkVisits recurse cs (n :: rel) y

theorem walkVisits_iff (r : Bool) (cs : List FSNode) (rel : List String) (x : FSNode) :
    WalkVisits r cs rel x ↔
      (x ∈ cs ∧ rel = [nodeName x]) ∨
      (r = true ∧ ∃ n m ch rel2, FSNode.dir n m false ch ∈ cs ∧ rel = n :: rel2 ∧
        WalkVisits r ch rel2 x) := by
  constructor
  · intro h
    cases h with
    | here hx => exact Or.inl ⟨hx, rfl⟩
    | child hmem hr hsub => exact Or.inr ⟨hr, _, _, _, _, hmem, rfl, hsub⟩
  · rintro (⟨hx, rfl⟩ | ⟨hr, n, m, ch, rel2, hmem, rfl, hsub⟩)
    · exact .here hx
    · exact .child hmem hr hsub

theorem walkVisits_ne_nil {r : Bool} {cs : List FSNode} {rel : List String}
    {x : FSNode} (h : WalkVisits r cs rel x) : rel ≠ [] := by
  cases h <;> simp

theorem classify_mem_dirs (crit : Crit) (now : Int) :
    ∀ (cs : List FSNode) (rel : List String),
      rel ∈ (classifyList crit now cs).1 ↔
        ∃ x ∈ cs, isDirN x = true ∧ dirPass crit now x = true ∧ rel = [nodeName x] := by
  intro cs
  induction cs with
  | nil => intro rel; simp [classifyList]
  | cons x xs ih =>
    intro rel
    unfold classifyList
    cases x with
    | file n s m =>
      simp only
      split
      · simp only [List.mem_cons]
        rw [ih]
        constructor
        · rintro ⟨y, hy, h⟩; exact ⟨y, Or.inr hy, h⟩
        · rintro ⟨y, hy | hy, h⟩
          · rw [hy] at h; simp [isDirN] at h
          · exact ⟨y, hy, h⟩
      · rw [ih]
        constructor
        · rintro ⟨y, hy, h⟩; exact ⟨y, List.mem_cons_of_mem _ hy, h⟩
        · rintro ⟨y, hy, h⟩
          rcases List.mem_cons.mp hy with rfl | hy2
          · simp [isDirN] at h
          · exact ⟨y, hy2, h⟩
    | dir n m l ch =>
      simp only
      split
      · rename_i hpass
        simp only [List.mem_cons]
        constructor
        · rintro (rfl | h)
          · exact ⟨.dir n m l ch, Or.inl rfl, rfl, hpass, rfl⟩
          · obtain ⟨y, hy, h2⟩ := (ih rel).mp h
            exact ⟨y, Or.inr hy, h2⟩
        · rintro ⟨y, hy, hdir, hp, rfl⟩
          rcases hy with rfl | hy2
          · exact Or.inl rfl
          · exact Or.inr ((ih _).mpr ⟨y, hy2, hdir, hp, rfl⟩)
      · rename_i hpass
        rw [ih]
        constructor
        · rintro ⟨y, hy, h⟩; exact ⟨y, List.mem_cons_of_mem _ hy, h⟩
        · rintro ⟨y, hy, hdir, hp, rfl⟩
          rcases List.mem_cons.mp hy with rfl | hy2
          · exact absurd hp hpass
          · exact ⟨y, hy2, hdir, hp, rfl⟩

theorem classify_mem_files (crit : Crit) (now : Int) :
    ∀ (cs : List FSNode) (rel : List String),
      rel ∈ (classifyList crit now cs).2 ↔
        ∃ x ∈ cs, isFileN x = true ∧ filePass crit now x = true ∧ rel = [nodeName x] := by
  intro cs
  induction cs with
  | nil => intro rel; simp [classifyList]
  | cons x xs ih =>
    intro rel
    unfold classifyList
    cases x with
    | dir n m l ch =>
      simp only
      split
      · simp only
        rw [ih]
        constructor
        · rintro ⟨y, hy, h⟩; exact ⟨y, List.mem_cons_of_mem _ hy, h⟩
        · rintro ⟨y, hy, h⟩
          rcases List.mem_cons.mp hy with rfl | hy2
          · simp [isFileN] at h
          · exact ⟨y, hy2, h⟩
      · rw [ih]
        constructor
        · rintro ⟨y, hy, h⟩; exact ⟨y, List.mem_cons_of_mem _ hy, h⟩
        · rintro ⟨y, hy, h⟩
          rcases List.mem_cons.mp hy with rfl | hy2
          · simp [isFileN] at h
          · exact ⟨y, hy2, h⟩
    | file n s m =>
      simp only
      split
      · rename_i hpass
        simp only [List.mem_cons]
        constructor
        · rintro (rfl | h)
          · exact ⟨.file n s m, Or.inl rfl, rfl, hpass, rfl⟩
          · obtain ⟨y, hy, h2⟩ := (ih rel).mp h
            exact ⟨y, Or.inr hy, h2⟩
        · rintro ⟨y, hy, hf, hp, rfl⟩
          rcases hy with rfl | hy2
          · exact Or.inl rfl
          · exact Or.inr ((ih _).mpr ⟨y, hy2, hf, hp, rfl⟩)
      · rename_i hpass
        rw [ih]
        constructor
        · rintro ⟨y, hy, h⟩; exact ⟨y, List.mem_cons_of_mem _ hy, h⟩
        · rintro ⟨y, hy, hf, hp, rfl⟩
          rcases List.mem_cons.mp hy with rfl | hy2
          · exact absurd hp hpass
          · exact ⟨y, hy2, hf, hp, rfl⟩

theorem walkSubs_mem_dirs (crit : Crit) (now : Int) :
    ∀ (cs : List FSNode) (rel : List String),
      rel ∈ (walkSubs crit now cs).1 ↔
        ∃ n m ch rel2, FSNode.dir n m false ch ∈ cs ∧ rel = n :: rel2 ∧
          rel2 ∈ (walkRel crit now ch).1 := by
  intro cs
  induction cs with
  | nil => intro rel; simp [walkSubs]
  | cons x xs ih =>
    intro rel
    unfold walkSubs
    cases x with
    | file n s m =>
      simp only [List.mem_append]
      constructor
      · rintro (h | h)
        · simp at h
        · obtain ⟨n2, m2, ch2, rel2, hmem, rfl, h2⟩ := (ih rel).mp h
          exact ⟨n2, m2, ch2, rel2, List.mem_cons_of_mem _ hmem, rfl, h2⟩
      · rintro ⟨n2, m2, ch2, rel2, hmem, rfl, h2⟩
        rcases List.mem_cons.mp hmem with heq | hmem2
        · exact absurd heq (by simp)
        · exact Or.inr ((ih _).mpr ⟨n2, m2, ch2, rel2, hmem2, rfl, h2⟩)
    | dir n m l ch =>
      cases l with
      | true =>
        simp only [List.mem_append]
        constructor
        · rintro (h | h)
          · simp at h
          · obtain ⟨n2, m2, ch2, rel2, hmem, rfl, h2⟩ := (ih rel).mp h
            exact ⟨n2, m2, ch2, rel2, List.mem_cons_of_mem _ hmem, rfl, h2⟩
        · rintro ⟨n2, m2, ch2, rel2, hmem, rfl, h2⟩
          rcases List.mem_cons.mp hmem with heq | hmem2
          · exact absurd heq (by simp)
          · exact Or.inr ((ih _).mpr ⟨n2, m2, ch2, rel2, hmem2, rfl, h2⟩)
      | false =>
        simp only [List.mem_append, List.mem_map]
        constructor
        · rintro (⟨rel2, h2, rfl⟩ | h)
          · exact ⟨n, m, ch, rel2, List.mem_cons_self _ _, rfl, h2⟩
          · obtain ⟨n2, m2, ch2, rel2, hmem, rfl, h2⟩ := (ih rel).mp h
            exact ⟨n2, m2, ch2, rel2, List.mem_cons_of_mem _ hmem, rfl, h2⟩
        · rintro ⟨n2, m2, ch2, rel2, hmem, rfl, h2⟩
          rcases List.mem_cons.mp hmem with heq | hmem2
          · obtain ⟨rfl, -, -, rfl⟩ := FSNode.dir.injEq .. ▸ (by
              injection heq with h1 h2 h3 h4
              exact ⟨h1, h2, h3, h4⟩ : n2 = n ∧ m2 = m ∧ false = false ∧ ch2 = ch)
            exact Or.inl ⟨rel2, h2, rfl⟩
          · exact Or.inr ((ih _).mpr ⟨n2, m2, ch2, rel2, hmem2, rfl, h2⟩)

theorem walkSubs_mem_files (crit : Crit) (now : Int) :
    ∀ (cs : List FSNode) (rel : List String),
      rel ∈ (walkSubs crit now cs).2 ↔
        ∃ n m ch rel2, FSNode.dir n m false ch ∈ cs ∧ rel = n :: rel2 ∧
          rel2 ∈ (walkRel crit now ch).2 := by
  intro cs
  induction cs with
  | nil => intro rel; simp [walkSubs]
  | cons x xs ih =>
    intro rel
    unfold walkSubs
    cases x with
    | file n s m =>
      simp only [List.mem_append]
      constructor
      · rintro (h | h)
        · simp at h
        · obtain ⟨n2, m2, ch2, rel2, hmem, rfl, h2⟩ := (ih rel).mp h
          exact ⟨n2, m2, ch2, rel2, List.mem_cons_of_mem _ hmem, rfl, h2⟩
      · rintro ⟨n2, m2, ch2, rel2, hmem, rfl, h2⟩
        rcases List.mem_cons.mp hmem with heq | hmem2
        · exact absurd heq (by simp)
        · exact Or.inr ((ih _).mpr ⟨n2, m2, ch2, rel2, hmem2, rfl, h2⟩)
    | dir n m l ch =>
      cases l with
      | true =>
        simp only [List.mem_append]
        constructor
        · rintro (h | h)
          · simp at h
          · obtain ⟨n2, m2, ch2, rel2, hmem, rfl, h2⟩ := (ih rel).mp h
            exact ⟨n2, m2, ch2, rel2, List.mem_cons_of_mem _ hmem, rfl, h2⟩
        · rintro ⟨n2, m2, ch2, rel2, hmem, rfl, h2⟩
          rcases List.mem_cons.mp hmem with heq | hmem2
          · exact absurd heq (by simp)
          · exact Or.inr ((ih _).mpr ⟨n2, m2, ch2, rel2, hmem2, rfl, h2⟩)
      | false =>
        simp only [List.mem_append, List.mem_map]
        constructor
        · rintro (⟨rel2, h2, rfl⟩ | h)
          · exact ⟨n, m, ch, rel2, List.mem_cons_self _ _, rfl, h2⟩
          · obtain ⟨n2, m2, ch2, rel2, hmem, rfl, h2⟩ := (ih rel).mp h
            exact ⟨n2, m2, ch2, rel2, List.mem_cons_of_mem _ hmem, rfl, h2⟩
        · rintro ⟨n2, m2, ch2, rel2, hmem, rfl, h2⟩
          rcases List.mem_cons.mp hmem with heq | hmem2
          · obtain ⟨rfl, -, -, rfl⟩ := FSNode.dir.injEq .. ▸ (by
              injection heq with h1 h2 h3 h4
              exact ⟨h1, h2, h3, h4⟩ : n2 = n ∧ m2 = m ∧ false = false ∧ ch2 = ch)
            exact Or.inl ⟨rel2, h2, rfl⟩
          · exact Or.inr ((ih _).mpr ⟨n2, m2, ch2, rel2, hmem2, rfl, h2⟩)

theorem walkRel_unfold (crit : Crit) (now : Int) (cs : List FSNode) :
    walkRel crit now cs =
      if crit.recurse
      then ((classifyList crit now cs).1 ++ (walkSubs crit now cs).1,
            (classifyList crit now cs).2 ++ (walkSubs crit now cs).2)
      else classifyList crit now cs := by
  unfold walkRel
  split <;> rfl

theorem walkRel_mem_dirs_step (crit : Crit) (now : Int) (cs : List FSNode)
    (rel : List String) :
    rel ∈ (walkRel crit now cs).1 ↔
      (∃ x ∈ cs, isDirN x = true ∧ dirPass crit now x = true ∧ rel = [nodeName x])
      ∨ (crit.recurse = true ∧ ∃ n m ch rel2, FSNode.dir n m false ch ∈ cs ∧
          rel = n :: rel2 ∧ rel2 ∈ (walkRel crit now ch).1) := by
  rw [walkRel_unfold]
  cases hr : crit.recurse with
  | false =>
    rw [if_neg (by simp), classify_mem_dirs]
    simp
  | true =>
    rw [if_pos rfl]
    simp only [List.mem_append]
    rw [classify_mem_dirs, walkSubs_mem_dirs]
    simp

theorem walkRel_mem_files_step (crit : Crit) (now : Int) (cs : List FSNode)
    (rel : List String) :
    rel ∈ (walkRel crit now cs).2 ↔
      (∃ x ∈ cs, isFileN x = true ∧ filePass crit now x = true ∧ rel = [nodeName x])
      ∨ (crit.recurse = true ∧ ∃ n m ch rel2, FSNode.dir n m false ch ∈ cs ∧
          rel = n :: rel2 ∧ rel2 ∈ (walkRel crit now ch).2) := by
  rw [walkRel_unfold]
  cases hr : crit.recurse with
  | false =>
    rw [if_neg (by simp), classify_mem_files]
    simp
  | true =>
    rw [if_pos rfl]
    simp only [List.mem_append]
    rw [classify_mem_files, walkSubs_mem_files]
    simp

theorem sizeOf_children_lt {n : String} {m : Meta} {l : Bool} {ch cs : List FSNode}
    (hmem : FSNode.dir n m l ch ∈ cs) : sizeOf ch < sizeOf cs := by
  have h1 := List.sizeOf_lt_of_mem hmem
  have h2 : sizeOf (FSNode.dir n m l ch) = 1 + sizeOf n + sizeOf m + sizeOf l + sizeOf ch := by
    simp
  omega

theorem walkRel_mem_iff_aux (crit : Crit) (now : Int) :
    ∀ (N : Nat) (cs : List FSNode), sizeOf cs ≤ N → ∀ rel : List String,
      (rel ∈ (walkRel crit now cs).1 ↔
        ∃ x, WalkVisits crit.recurse cs rel x ∧ isDirN x = true ∧ dirPass crit now x = true)
      ∧ (rel ∈ (walkRel crit now cs).2 ↔
        ∃ x, WalkVisits crit.recurse cs rel x ∧ isFileN x = true ∧ filePass crit now x = true) := by
  intro N
  induction N with
  | zero =>
    intro cs h
    exact absurd h (by cases cs <;> simp)
  | succ N ih =>
    intro cs hsz rel
    constructor
    · rw [walkRel_mem_dirs_step]
      constructor
      · rintro (⟨x, hx, hdir, hpass, rfl⟩ | ⟨hr, n, m, ch, rel2, hmem, rfl, hrel2⟩)
        · exact ⟨x, .here hx, hdir, hpass⟩
        · have hch : sizeOf ch ≤ N := by
            have := sizeOf_children_lt hmem
            omega
          obtain ⟨y, hv, hdir, hpass⟩ := ((ih ch hch rel2).1).mp hrel2
          exact ⟨y, .child hmem hr hv, hdir, hpass⟩
      · rintro ⟨x, hv, hdir, hpass⟩
        rcases (walkVisits_iff _ _ _ _).mp hv with ⟨hx, rfl⟩ |
          ⟨hr, n, m, ch, rel2, hmem, rfl, hsub⟩
        · exact Or.inl ⟨x, hx, hdir, hpass, rfl⟩
        · have hch : sizeOf ch ≤ N := by
            have := sizeOf_children_lt hmem
            omega
          exact Or.inr ⟨hr, n, m, ch, rel2, hmem, rfl,
            ((ih ch hch rel2).1).mpr ⟨x, hsub, hdir, hpass⟩⟩
    · rw [walkRel_mem_files_step]
      constructor
      · rintro (⟨x, hx, hf, hpass, rfl⟩ | ⟨hr, n, m, ch, rel2, hmem, rfl, hrel2⟩)
        · exact ⟨x, .here hx, hf, hpass⟩
        · have hch : sizeOf ch ≤ N := by
            have := sizeOf_children_lt hmem
            omega
          obtain ⟨y, hv, hf, hpass⟩ := ((ih ch hch rel2).2).mp hrel2
          exact ⟨y, .child hmem hr hv, hf, hpass⟩
      · rintro ⟨x, hv, hf, hpass⟩
        rcases (walkVisits_iff _ _ _ _).mp hv with ⟨hx, rfl⟩ |
          ⟨hr, n, m, ch, rel2, hmem, rfl, hsub⟩
        · exact Or.inl ⟨x, hx, hf, hpass, rfl⟩
        · have hch : sizeOf ch ≤ N := by
            have := sizeOf_children_lt hmem
            omega
          exact Or.inr ⟨hr, n, m, ch, rel2, hmem, rfl,
            ((ih ch hch rel2).2).mpr ⟨x, hsub, hf, hpass⟩⟩

/-- Membership characterization of the walk's directory candidates. -/
theorem walkRel_mem_dirs (crit : Crit) (now : Int) (cs : List FSNode) (rel : List String) :
    rel ∈ (walkRel crit now cs).1 ↔
      ∃ x, WalkVisits crit.recurse cs rel x ∧ isDirN x = true ∧ dirPass crit now x = true :=
  (walkRel_mem_iff_aux crit now (sizeOf cs) cs (le_refl _) rel).1

/-- Membership characterization of the walk's file candidates. -/
theorem walkRel_mem_files (crit : Crit) (now : Int) (cs : List FSNode) (rel : List String) :
    rel ∈ (walkRel crit now cs).2 ↔
      ∃ x, WalkVisits crit.recurse cs rel x ∧ isFileN x = true ∧ filePass crit now x = true :=
  (walkRel_mem_iff_aux crit now (sizeOf cs) cs (le_refl _) rel).2

/-! ## Claim C1: the selector -/

/-- C1: over an existing directory target, the walk's scope is exactly
`WalkVisits` (direct children only when `recurse` is false; all descended
levels, descent not pruned by candidacy, when it is true), an in-scope
directory is a directory candidate iff `rmdirs` and the name and age filters
hold (the size filter is not applied to directories), an in-scope file is a
file candidate iff the name, age and size filters hold; a single existing
file target is the sole file candidate iff all three filters pass, with no
directory candidates; a missing target yields no candidates. -/
theorem c1_selector :
    (∀ (crit : Crit) (now : Int) (nm : String) (m : Meta) (l : Bool)
        (ch : List FSNode) (rel : List String),
      rel ∈ (selectCands crit now (some (.dir nm m l ch))).1 ↔
        ∃ x, WalkVisits crit.recurse ch rel x ∧ isDirN x = true ∧
          crit.rmdirs = true ∧ pfilter (nodeName x) crit.matchPats = true ∧
          agefilter now (nodeMeta x) crit.age crit.timestamp = true)
  ∧ (∀ (crit : Crit) (now : Int) (nm : String) (m : Meta) (l : Bool)
        (ch : List FSNode) (rel : List String),
      rel ∈ (selectCands crit now (some (.dir nm m l ch))).2 ↔
        ∃ x, WalkVisits crit.recurse ch rel x ∧ isFileN x = true ∧
          pfilter (nodeName x) crit.matchPats = true ∧
          agefilter now (nodeMeta x) crit.age crit.timestamp = true ∧
          sizefilter (nodeSize x) crit.size = true)
  ∧ (∀ (crit : Crit) (now : Int) (nm : String) (sz : Nat) (m : Meta),
      (selectCands crit now (some (.file nm sz m))).1 = []
      ∧ ((selectCands crit now (some (.file nm sz m))).2 = [[]] ↔
          pfilter (basename crit.path) crit.matchPats = true ∧
          agefilter now m crit.age crit.timestamp = true ∧
          sizefilter sz crit.size = true)
      ∧ ((selectCands crit now (some (.file nm sz m))).2 = [] ↔
          ¬(pfilter (basename crit.path) crit.matchPats = true ∧
            agefilter now m crit.age crit.timestamp = true ∧
            sizefilter sz crit.size = true)))
  ∧ selectCands = fun (crit : Crit) (now : Int) st =>
      match st with
      | some (.dir _ _ _ ch) => walkRel crit now ch
      | some (.file _ sz m) =>
        if pfilter (basename crit.path) crit.matchPats &&
            agefilter now m crit.age crit.timestamp && sizefilter sz crit.size
        then ([], [[]])
        else ([], [])
      | none => ([], []) := by
  refine ⟨?_, ?_, ?_, rfl⟩
  · intro crit now nm m l ch rel
    show rel ∈ (walkRel crit now ch).1 ↔ _
    rw [walkRel_mem_dirs]
    constructor
    · rintro ⟨x, hv, hdir, hpass⟩
      simp only [dirPass, Bool.and_eq_true] at hpass
      exact ⟨x, hv, hdir, hpass.2, hpass.1.1, hpass.1.2⟩
    · rintro ⟨x, hv, hdir, h1, h2, h3⟩
      exact ⟨x, hv, hdir, by simp [dirPass, h1, h2, h3]⟩
  · intro crit now nm m l ch rel
    show rel ∈ (walkRel crit now ch).2 ↔ _
    rw [walkRel_mem_files]
    constructor
    · rintro ⟨x, hv, hf, hpass⟩
      simp only [filePass, Bool.and_eq_true] at hpass
      exact ⟨x, hv, hf, hpass.1.1, hpass.1.2, hpass.2⟩
    · rintro ⟨x, hv, hf, h1, h2, h3⟩
      exact ⟨x, hv, hf, by simp [filePass, h1, h2, h3]⟩
  · intro crit now nm sz m
    have hsel : selectCands crit now (some (.file nm sz m)) =
        (if pfilter (basename crit.path) crit.matchPats &&
            agefilter now m crit.age crit.timestamp && sizefilter sz crit.size
          then ([], [[]]) else ([], [])) := rfl
    by_cases hp : (pfilter (basename crit.path) crit.matchPats &&
        agefilter now m crit.age crit.timestamp && sizefilter sz crit.size) = true
    · rw [hsel, if_pos hp]
      rw [Bool.and_eq_true, Bool.and_eq_true] at hp
      exact ⟨rfl, by simp [hp.1.1, hp.1.2, hp.2], by simp [hp.1.1, hp.1.2, hp.2]⟩
    · rw [hsel, if_neg hp]
      have hncon : ¬(pfilter (basename crit.path) crit.matchPats = true ∧
          agefilter now m crit.age crit.timestamp = true ∧
          sizefilter sz crit.size = true) := by
        rintro ⟨h1, h2, h3⟩
        exact hp (by simp [h1, h2, h3])
      exact ⟨rfl, ⟨fun h => absurd h (by simp), fun h => absurd h hncon⟩,
        ⟨fun _ => hncon, fun _ => rfl⟩⟩

/-- Witness for C1 at a concrete input: in the C5 tree, ["a"] is a directory
candidate of the walk. -/
theorem c1_selector_witness :
    (["a"] ∈ (selectCands (critC5 false) 0 stC5).1 ↔
      ∃ x, WalkVisits (critC5 false).recurse
          [FSNode.dir "a" metaZero false [FSNode.dir "b" metaZero false []]] ["a"] x ∧
        isDirN x = true ∧ (critC5 false).rmdirs = true ∧
        pfilter (nodeName x) (critC5 false).matchPats = true ∧
        agefilter 0 (nodeMeta x) (critC5 false).age (critC5 false).timestamp = true) :=
  c1_selector.1 (critC5 false) 0 "t" metaZero false
    [FSNode.dir "a" metaZero false [FSNode.dir "b" metaZero false []]] ["a"]

/-! ## Claim C10: the target itself is never a candidate -/

theorem renderPath_ne_base {base : String} {rel : List String} (h : rel ≠ []) :
    renderPath base rel ≠ base := by
  cases rel with
  | nil => exact absurd rfl h
  | cons r rs =>
    intro heq
    have : (base ++ "/" ++ String.intercalate "/" (r :: rs)).length = base.length := by
      rw [show renderPath base (r :: rs) = base ++ "/" ++ String.intercalate "/" (r :: rs)
        from rfl] at heq
      rw [heq]
    simp [String.length_append] at this
    have h1 : "/".length = 1 := rfl
    rw [h1] at this
    omega

/-- Paths recorded by the directory loop all come from its accumulator or its
input list. -/
theorem delDirs_deleted_sub (force silent : Bool) (fails : List String → Bool) :
    ∀ (l : List (List String)) (st : Option FSNode) (acc : List (List String)),
      (∀ st2 dd, delDirs force silent fails st acc l = .ok st2 dd →
        ∀ d ∈ dd, d ∈ acc ∨ d ∈ l)
      ∧ (∀ st2 dd d0, delDirs force silent fails st acc l = .fatal st2 dd d0 →
        ∀ d ∈ dd, d ∈ acc ∨ d ∈ l) := by
  intro l
  induction l with
  | nil =>
    intro st acc
    constructor
    · intro st2 dd h d hd
      cases h
      exact Or.inl hd
    · intro st2 dd d0 h
      cases h
  | cons c rest ih =>
    intro st acc
    have hstep : ∀ (st' : Option FSNode) (acc' : List (List String)),
        (acc' = acc ∨ acc' = acc ++ [c]) →
        (∀ st2 dd, delDirs force silent fails st' acc' rest = .ok st2 dd →
          ∀ d ∈ dd, d ∈ acc ∨ d ∈ c :: rest)
        ∧ (∀ st2 dd d0, delDirs force silent fails st' acc' rest = .fatal st2 dd d0 →
          ∀ d ∈ dd, d ∈ acc ∨ d ∈ c :: rest) := by
      intro st' acc' hacc
      have hsub : ∀ d, d ∈ acc' ∨ d ∈ rest → d ∈ acc ∨ d ∈ c :: rest := by
        intro d hd
        rcases hd with hd | hd
        · rcases hacc with rfl | rfl
          · exact Or.inl hd
          · rcases List.mem_append.mp hd with hd2 | hd2
            · exact Or.inl hd2
            · simp at hd2
              exact Or.inr (by simp [hd2])
        · exact Or.inr (List.mem_cons_of_mem _ hd)
      exact ⟨fun st2 dd h d hd => hsub d ((ih st' acc').1 st2 dd h d hd),
        fun st2 dd d0 h d hd => hsub d ((ih st' acc').2 st2 dd d0 h d hd)⟩
    constructor
    · intro st2 dd h d hd
      unfold delDirs at h
      rcases hda : dirStep force silent fails st c with ⟨a, st'⟩
      rw [hda] at h
      cases a with
      | failFatal => simp at h
      | skipMissing => exact (hstep st' acc (Or.inl rfl)).1 st2 dd (by simpa using h) d hd
      | skipNotEmpty => exact (hstep st' acc (Or.inl rfl)).1 st2 dd (by simpa using h) d hd
      | failSilent => exact (hstep st' acc (Or.inl rfl)).1 st2 dd (by simpa using h) d hd
      | removeLink =>
        exact (hstep st' (acc ++ [c]) (Or.inr rfl)).1 st2 dd (by simpa using h) d hd
      | removeTree =>
        exact (hstep st' (acc ++ [c]) (Or.inr rfl)).1 st2 dd (by simpa using h) d hd
    · intro st2 dd d0 h d hd
      unfold delDirs at h
      rcases hda : dirStep force silent fails st c with ⟨a, st'⟩
      rw [hda] at h
      cases a with
      | failFatal =>
        simp only [LoopRes.fatal.injEq] at h
        exact Or.inl (h.2.1 ▸ hd)
      | skipMissing => exact (hstep st' acc (Or.inl rfl)).2 st2 dd d0 (by simpa using h) d hd
      | skipNotEmpty => exact (hstep st' acc (Or.inl rfl)).2 st2 dd d0 (by simpa using h) d hd
      | failSilent => exact (hstep st' acc (Or.inl rfl)).2 st2 dd d0 (by simpa using h) d hd
      | removeLink =>
        exact (hstep st' (acc ++ [c]) (Or.inr rfl)).2 st2 dd d0 (by simpa using h) d hd
      | removeTree =>
        exact (hstep st' (acc ++ [c]) (Or.inr rfl)).2 st2 dd d0 (by simpa using h) d hd

theorem sortedDirCands_mem (crit : Crit) (now : Int) (st : Option FSNode)
    (rel : List String) :
    rel ∈ sortedDirCands crit now st ↔ rel ∈ (selectCands crit now st).1 := by
  unfold sortedDirCands
  split
  · exact (sortBy_perm _ _).mem_iff
  · rw [List.mem_reverse]
    exact (sortBy_perm _ _).mem_iff

theorem sortedFileCands_mem (crit : Crit) (now : Int) (st : Option FSNode)
    (rel : List String) :
    rel ∈ sortedFileCands crit now st ↔ rel ∈ (selectCands crit now st).2 :=
  (sortBy_perm _ _).mem_iff

theorem dir_cand_ne_nil {crit : Crit} {now : Int} {nm : String} {m : Meta}
    {l : Bool} {ch : List FSNode} {rel : List String}
    (h : rel ∈ (selectCands crit now (some (.dir nm m l ch))).1) : rel ≠ [] := by
  have h2 : rel ∈ (walkRel crit now ch).1 := h
  obtain ⟨x, hv, -, -⟩ := (walkRel_mem_dirs crit now ch rel).mp h2
  exact walkVisits_ne_nil hv

theorem file_cand_ne_nil {crit : Crit} {now : Int} {nm : String} {m : Meta}
    {l : Bool} {ch : List FSNode} {rel : List String}
    (h : rel ∈ (selectCands crit now (some (.dir nm m l ch))).2) : rel ≠ [] := by
  have h2 : rel ∈ (walkRel crit now ch).2 := h
  obtain ⟨x, hv, -, -⟩ := (walkRel_mem_files crit now ch rel).mp h2
  exact walkVisits_ne_nil hv

/-! Claim C10 itself. -/

/-- C10: when the target is a directory, only children encountered during the
traversal are classified, so the target path itself never appears among the
directory candidates (whatever the criteria, including `rmdirs` and `recurse`
and filters the target would satisfy), nor in the reported `deleted_dirs` of
any outcome of a run over a directory target. -/
theorem c10_target_never_candidate :
    (∀ (crit : Crit) (now : Int) (nm : String) (m : Meta) (l : Bool)
        (ch : List FSNode) (rel : List String),
      rel ∈ (selectCands crit now (some (.dir nm m l ch))).1 → rel ≠ [])
  ∧ (∀ (crit : Crit) (now : Int) (nm : String) (m : Meta) (l : Bool)
        (ch : List FSNode),
      crit.path ∉ (sortedDirCands crit now (some (.dir nm m l ch))).map
        (renderPath crit.path))
  ∧ (∀ (crit : Crit) (now : Int) (nm : String) (m : Meta) (l : Bool)
        (ch : List FSNode) (ck : Bool) (fails : List String → Bool)
        (errs : List String → String) (dF dD : List String) (c : Bool),
      (applyCore crit now ck (some (.dir nm m l ch)) fails errs).1 = .ok dF dD c →
        crit.path ∉ dD)
  ∧ (∀ (crit : Crit) (now : Int) (nm : String) (m : Meta) (l : Bool)
        (ch : List FSNode) (ck : Bool) (fails : List String → Bool)
        (errs : List String → String) (dF dD : List String) (pa ms : String),
      (applyCore crit now ck (some (.dir nm m l ch)) fails errs).1
          = .fatal dF dD pa ms →
        crit.path ∉ dD) := by
  have hsorted : ∀ (crit : Crit) (now : Int) (nm : String) (m : Meta) (l : Bool)
      (ch : List FSNode),
      crit.path ∉ (sortedDirCands crit now (some (.dir nm m l ch))).map
        (renderPath crit.path) := by
    intro crit now nm m l ch hmem
    obtain ⟨rel, hrel, heq⟩ := List.mem_map.mp hmem
    have h2 := (sortedDirCands_mem crit now _ rel).mp hrel
    exact renderPath_ne_base (dir_cand_ne_nil h2) heq
  refine ⟨fun crit now nm m l ch rel h => dir_cand_ne_nil h, hsorted, ?_, ?_⟩
  · intro crit now nm m l ch ck fails errs dF dD c h
    unfold applyCore at h
    split at h
    · simp only [Prod.fst, RunOutcome.ok.injEq] at h
      exact h.2.1 ▸ hsorted crit now nm m l ch
    · cases hF : delFiles crit.silent fails (some (.dir nm m l ch)) []
          (sortedFileCands crit now (some (.dir nm m l ch))) with
      | fatal st1 df f => rw [hF] at h; simp at h
      | ok st1 df =>
        rw [hF] at h
        dsimp only at h
        cases hD : delDirs crit.force crit.silent fails st1 []
            (sortedDirCands crit now (some (.dir nm m l ch))) with
        | fatal st2 dd d0 => rw [hD] at h; simp at h
        | ok st2 dd =>
          rw [hD] at h
          simp only [Prod.fst, RunOutcome.ok.injEq] at h
          intro hmem
          rw [← h.2.1] at hmem
          obtain ⟨rel, hrel, heq⟩ := List.mem_map.mp hmem
          have hsub := (delDirs_deleted_sub crit.force crit.silent fails _ _ _).1
            st2 dd hD rel hrel
          rcases hsub with hsub | hsub
          · simp at hsub
          · have h2 := (sortedDirCands_mem crit now _ rel).mp hsub
            exact renderPath_ne_base (dir_cand_ne_nil h2) heq
  · intro crit now nm m l ch ck fails errs dF dD pa ms h
    unfold applyCore at h
    split at h
    · simp at h
    · cases hF : delFiles crit.silent fails (some (.dir nm m l ch)) []
          (sortedFileCands crit now (some (.dir nm m l ch))) with
      | fatal st1 df f =>
        rw [hF] at h
        simp only [Prod.fst, RunOutcome.fatal.injEq] at h
        rw [← h.2.1]
        simp
      | ok st1 df =>
        rw [hF] at h
        dsimp only at h
        cases hD : delDirs crit.force crit.silent fails st1 []
            (sortedDirCands crit now (some (.dir nm m l ch))) with
        | ok st2 dd => rw [hD] at h; simp at h
        | fatal st2 dd d0 =>
          rw [hD] at h
          simp only [Prod.fst, RunOutcome.fatal.injEq] at h
          intro hmem
          rw [← h.2.1] at hmem
          obtain ⟨rel, hrel, heq⟩ := List.mem_map.mp hmem
          have hsub := (delDirs_deleted_sub crit.force crit.silent fails _ _ _).2
            st2 dd d0 hD rel hrel
          rcases hsub with hsub | hsub
          · simp at hsub
          · have h2 := (sortedDirCands_mem crit now _ rel).mp hsub
            exact renderPath_ne_base (dir_cand_ne_nil h2) heq

/-- Witness for C10 at a concrete input. -/
theorem c10_target_never_candidate_witness :
    "/t" ∉ (["/t/a/b", "/t/a"] : List String) ∧ (critC5 false).path = "/t" := by
  constructor
  · have h := c10_target_never_candidate.2.2.1 (critC5 false) 0 "t" metaZero false
      [FSNode.dir "a" metaZero false [FSNode.dir "b" metaZero false []]] true
      (fun _ => false) (fun _ => "")
      [] ["/t/a/b", "/t/a"] true
    exact h (by
      simp [applyCore, critC5, sortedFileCands, sortedDirCands, selectCands,
        walkRel, walkSubs, classifyList, dirPass, filePass, pfilter, agefilter,
        sizefilter, sortBy, insertLe, relLe, strLe, charsLe, renderPath, metaZero,
        nodeName, String.intercalate]
      exact ⟨rfl, rfl⟩)
  · rfl

/-! ## Path resolution and removal lemmas (claims C6, C8) -/

mutual
/-- Sibling names are distinct throughout the tree (real filesystems cannot
have two children of one directory with the same name). -/
def wfN : FSNode → Bool
  | .file _ _ _ => true
  | .dir _ _ _ ch => wfL ch

def wfL : List FSNode → Bool
  | [] => true
  | x :: xs => wfN x && xs.all (fun y => !(nodeName y == nodeName x)) && wfL xs
end

def wfSt : Option FSNode → Bool
  | none => true
  | some t => wfN t

mutual
theorem findNode_append : ∀ (t : FSNode) (d q : List String),
    findNode t (d ++ q) = (findNode t d).bind (fun x => findNode x q)
  | t, [], q => by simp [findNode]
  | .file n s m, c :: d', q => by simp [findNode]
  | .dir n m l ch, c :: d', q => by
    simp only [List.cons_append, findNode]
    exact findIn_append ch c d' q

theorem findIn_append : ∀ (cs : List FSNode) (c : String) (d q : List String),
    findIn cs c (d ++ q) = (findIn cs c d).bind (fun x => findNode x q)
  | [], c, d, q => by simp [findIn]
  | x :: xs, c, d, q => by
    unfold findIn
    split
    · exact findNode_append x d q
    · exact findIn_append xs c d q
end

theorem findSt_append (st : Option FSNode) (d q : List String) :
    findSt st (d ++ q) = (findSt st d).bind (fun x => findNode x q) := by
  cases st with
  | none => rfl
  | some t => exact findNode_append t d q

theorem removeAt_cons_some (t : FSNode) (c : String) (q : List String) :
    ∃ t', removeAt t (c :: q) = some t' ∧ nodeName t' = nodeName t := by
  cases t with
  | file n s m => exact ⟨.file n s m, rfl, rfl⟩
  | dir n m l ch => exact ⟨.dir n m l (removeIn ch c q), rfl, rfl⟩

theorem findIn_none_of_no_name : ∀ (cs : List FSNode) (c : String) (q : List String),
    (∀ y ∈ cs, nodeName y ≠ c) → findIn cs c q = none := by
  intro cs
  induction cs with
  | nil => intro c q _; rfl
  | cons x xs ih =>
    intro c q h
    unfold findIn
    rw [if_neg (h x (by simp))]
    exact ih c q fun y hy => h y (by simp [hy])

theorem wfL_cons {x : FSNode} {xs : List FSNode} (h : wfL (x :: xs) = true) :
    wfN x = true ∧ (∀ y ∈ xs, nodeName y ≠ nodeName x) ∧ wfL xs = true := by
  unfold wfL at h
  simp only [Bool.and_eq_true, List.all_eq_true] at h
  refine ⟨h.1.1, fun y hy => ?_, h.2⟩
  have := h.1.2 y hy
  simpa using this

mutual
theorem removeAt_find_none : ∀ (t : FSNode) (rel : List String) (t' : FSNode),
    wfN t = true → removeAt t rel = some t' → findNode t' rel = none
  | t, [], t' => by intro _ h; simp [removeAt] at h
  | .file n s m, c :: q, t' => by
    intro _ h
    simp only [removeAt, Option.some.injEq] at h
    rw [← h]
    rfl
  | .dir n m l ch, c :: q, t' => by
    intro hwf h
    simp only [removeAt, Option.some.injEq] at h
    rw [← h]
    show findIn (removeIn ch c q) c q = none
    exact removeIn_find_none ch c q hwf

theorem removeIn_find_none : ∀ (cs : List FSNode) (c : String) (q : List String),
    wfL cs = true → findIn (removeIn cs c q) c q = none
  | [], c, q => by intro _; rfl
  | x :: xs, c, q => by
    intro hwf
    obtain ⟨hwx, hnames, hwxs⟩ := wfL_cons hwf
    unfold removeIn
    split
    · rename_i hname
      cases q with
      | nil =>
        show findIn (match removeAt x [] with
          | none => xs
          | some x' => x' :: xs) c [] = none
        simp only [removeAt]
        exact findIn_none_of_no_name xs c [] fun y hy => hname ▸ hnames y hy
      | cons c2 q' =>
        obtain ⟨x', hx', hxname⟩ := removeAt_cons_some x c2 q'
        rw [hx']
        unfold findIn
        rw [if_pos (by rw [hxname, hname])]
        exact removeAt_find_none x (c2 :: q') x' hwx hx'
    · rename_i hname
      unfold findIn
      rw [if_neg hname]
      exact removeIn_find_none xs c q hwxs
end

theorem removeAtSt_find_self_none {st : Option FSNode} (rel : List String)
    (hwf : wfSt st = true) : findSt (removeAtSt st rel) rel = none := by
  cases st with
  | none => rfl
  | some t =>
    cases rel with
    | nil => simp [removeAtSt, removeAt, findSt]
    | cons c q =>
      show findSt (removeAt t (c :: q)) (c :: q) = none
      obtain ⟨t', ht', -⟩ := removeAt_cons_some t c q
      rw [ht']
      exact removeAt_find_none t (c :: q) t' hwf ht'

theorem removeAtSt_find_sub_none {st : Option FSNode} (rel q : List String)
    (hwf : wfSt st = true) : findSt (removeAtSt st rel) (rel ++ q) = none := by
  rw [findSt_append, removeAtSt_find_self_none rel hwf]
  rfl

/-! ## Claim C6: directory deletion semantics -/

/-- C6: for every directory candidate processed in apply mode — if the path
no longer exists it is skipped silently (state unchanged, nothing recorded,
whatever `silent`); an existing directory is attempted exactly when `force`
is true or it is currently empty; a non-empty directory with `force` false is
left in place, unrecorded and without error; an attempted removal that does
not raise removes a symbolic link as a link (`os.remove`) and a real
directory recursively (`shutil.rmtree`), in both cases erasing the path and,
on well-formed trees, its whole subtree from the state, and records the path;
the loop then continues. -/
theorem c6_dir_deletion :
    (∀ (force silent : Bool) (fails : List String → Bool) (st : Option FSNode)
        (d : List String),
      findSt st d = none → dirStep force silent fails st d = (.skipMissing, st))
  ∧ (∀ (force silent : Bool) (fails : List String → Bool) (st : Option FSNode)
        (d : List String) (node : FSNode),
      findSt st d = some node → force = false → (nodeChildren node).isEmpty = false →
        dirStep force silent fails st d = (.skipNotEmpty, st))
  ∧ (∀ (force silent : Bool) (fails : List String → Bool) (st : Option FSNode)
        (d : List String),
      isAttempt (dirStep force silent fails st d).1 = true ↔
        ∃ node, findSt st d = some node ∧
          (force = true ∨ (nodeChildren node).isEmpty = true))
  ∧ (∀ (force silent : Bool) (fails : List String → Bool) (st : Option FSNode)
        (d : List String) (node : FSNode),
      findSt st d = some node → (force || (nodeChildren node).isEmpty) = true →
      fails d = false →
        dirStep force silent fails st d =
          ((if nodeIsLink node then .removeLink else .removeTree), removeAtSt st d))
  ∧ (∀ (st : Option FSNode) (d q : List String), wfSt st = true →
      findSt (removeAtSt st d) (d ++ q) = none)
  ∧ (∀ (force silent : Bool) (fails : List String → Bool) (st st' : Option FSNode)
        (acc : List (List String)) (d : List String) (rest : List (List String))
        (a : DirAction),
      dirStep force silent fails st d = (a, st') → a ≠ .failFatal →
        delDirs force silent fails st acc (d :: rest) =
          delDirs force silent fails st'
            (if recordsDel a then acc ++ [d] else acc) rest) := by
  refine ⟨?_, ?_, ?_, ?_, fun st d q hwf => removeAtSt_find_sub_none d q hwf, ?_⟩
  · intro force silent fails st d h
    unfold dirStep
    rw [h]
  · intro force silent fails st d node h hforce hne
    unfold dirStep
    rw [h]
    simp only [hforce, hne, Bool.or_self]
    rfl
  · intro force silent fails st d
    unfold dirStep
    cases h : findSt st d with
    | none => simp [isAttempt]
    | some node =>
      dsimp only
      by_cases hc : (force || (nodeChildren node).isEmpty) = true
      · rw [if_pos hc]
        simp only [Bool.or_eq_true] at hc
        constructor
        · intro _; exact ⟨node, rfl, hc⟩
        · intro _
          split
          · split <;> simp [isAttempt]
          · split <;> simp [isAttempt]
      · rw [if_neg hc]
        simp only [Bool.or_eq_true] at hc
        constructor
        · intro hfalse
          simp [isAttempt] at hfalse
        · rintro ⟨node2, hn2, hor⟩
          injection hn2 with hn2
          rw [← hn2] at hor
          exact absurd hor hc
  · intro force silent fails st d node h hcond hf
    unfold dirStep
    rw [h]
    dsimp only
    rw [if_pos hcond, hf]
    simp only [Bool.false_eq_true, if_false]
    split <;> rfl
  · intro force silent fails st st' acc d rest a hstep hne
    conv_lhs => unfold delDirs
    rw [hstep]
    cases a with
    | failFatal => exact absurd rfl hne
    | skipMissing => rfl
    | skipNotEmpty => rfl
    | removeLink => rfl
    | removeTree => rfl
    | failSilent => rfl

/-- Witness for C6 at concrete inputs: a missing path is skipped, and a
non-empty directory with force=false is left in place. -/
theorem c6_dir_deletion_witness :
    dirStep false false (fun _ => false) stC5 ["zzz"] = (.skipMissing, stC5)
    ∧ dirStep false false (fun _ => false) stC5 ["a"]
      = (.skipNotEmpty, stC5)
    ∧ findSt (removeAtSt stC5 ["a"]) (["a"] ++ ["b"]) = none := by
  refine ⟨?_, ?_, ?_⟩
  · exact c6_dir_deletion.1 false false (fun _ => false) stC5 ["zzz"] (by
      simp [stC5, findSt, findNode, findIn, nodeName, metaZero])
  · exact c6_dir_deletion.2.1 false false (fun _ => false) stC5 ["a"]
      (.dir "a" metaZero false [.dir "b" metaZero false []])
      (by simp [stC5, findSt, findNode, findIn, nodeName, metaZero]) rfl rfl
  · exact c6_dir_deletion.2.2.2.2.1 stC5 ["a"] ["b"] (by
      simp [stC5, wfSt, wfN, wfL, nodeName, metaZero])

/-! ## Shrinking simulation (claim C8)

Deletion only removes entries; `Shrinks t2 t1` says `t2` is `t1` with some
whole subtrees deleted (same name, metadata, size and link status at every
surviving node). -/

mutual
inductive Shrinks : FSNode → FSNode → Prop where
  | file (n : String) (s : Nat) (m : Meta) : Shrinks (.file n s m) (.file n s m)
  | dir (n : String) (m : Meta) (l : Bool) {ch' ch : List FSNode} :
      SubShrinks ch' ch → Shrinks (.dir n m l ch') (.dir n m l ch)

inductive SubShrinks : List FSNode → List FSNode → Prop where
  | nil : SubShrinks [] []
  | keep {x' x : FSNode} {l' l : List FSNode} :
      Shrinks x' x → SubShrinks l' l → SubShrinks (x' :: l') (x :: l)
  | drop {x : FSNode} {l' l : List FSNode} :
      SubShrinks l' l → SubShrinks l' (x :: l)
end

mutual
theorem shrinks_refl : ∀ t : FSNode, Shrinks t t
  | .file n s m => .file n s m
  | .dir n m l ch => .dir n m l (subShrinks_refl ch)

theorem subShrinks_refl : ∀ l : List FSNode, SubShrinks l l
  | [] => .nil
  | x :: xs => .keep (shrinks_refl x) (subShrinks_refl xs)
end

mutual
theorem shrinks_trans : ∀ {a b c : FSNode}, Shrinks a b → Shrinks b c → Shrinks a c
  | _, _, _, .file n s m, .file _ _ _ => .file n s m
  | _, _, _, .dir n m l h1, .dir _ _ _ h2 => .dir n m l (subShrinks_trans h1 h2)

theorem subShrinks_trans : ∀ {a b c : List FSNode},
    SubShrinks a b → SubShrinks b c → SubShrinks a c
  | _, _, _, h1, .drop h2 => .drop (subShrinks_trans h1 h2)
  | _, _, _, .nil, .nil => .nil
  | _, _, _, .keep hx h1, .keep hy h2 =>
    .keep (shrinks_trans hx hy) (subShrinks_trans h1 h2)
  | _, _, _, .drop h1, .keep _ h2 => .drop (subShrinks_trans h1 h2)
end

theorem shrinks_name {a b : FSNode} (h : Shrinks a b) : nodeName a = nodeName b := by
  cases h <;> rfl

theorem shrinks_meta {a b : FSNode} (h : Shrinks a b) : nodeMeta a = nodeMeta b := by
  cases h <;> rfl

theorem shrinks_size {a b : FSNode} (h : Shrinks a b) : nodeSize a = nodeSize b := by
  cases h <;> rfl

theorem shrinks_isDir {a b : FSNode} (h : Shrinks a b) : isDirN a = isDirN b := by
  cases h <;> rfl

theorem shrinks_isFile {a b : FSNode} (h : Shrinks a b) : isFileN a = isFileN b := by
  cases h <;> rfl

theorem shrinks_isLink {a b : FSNode} (h : Shrinks a b) : nodeIsLink a = nodeIsLink b := by
  cases h <;> rfl

theorem shrinks_file_right {n : String} {s : Nat} {m : Meta} {a : FSNode}
    (h : Shrinks a (.file n s m)) : a = .file n s m := by
  cases h
  rfl

theorem shrinks_dir_right {n : String} {m : Meta} {l : Bool} {ch : List FSNode}
    {a : FSNode} (h : Shrinks a (.dir n m l ch)) :
    ∃ ch', a = .dir n m l ch' ∧ SubShrinks ch' ch := by
  cases h with
  | dir _ _ _ hsub => exact ⟨_, rfl, hsub⟩

theorem shrinks_dir_left {n : String} {m : Meta} {l : Bool} {ch' : List FSNode}
    {b : FSNode} (h : Shrinks (.dir n m l ch') b) :
    ∃ ch, b = .dir n m l ch ∧ SubShrinks ch' ch := by
  cases h with
  | dir _ _ _ hsub => exact ⟨_, rfl, hsub⟩

theorem shrinks_file_left {n : String} {s : Nat} {m : Meta} {b : FSNode}
    (h : Shrinks (.file n s m) b) : b = .file n s m := by
  cases h
  rfl

theorem subShrinks_mem : ∀ {l' l : List FSNode}, SubShrinks l' l →
    ∀ {x' : FSNode}, x' ∈ l' → ∃ x, x ∈ l ∧ Shrinks x' x
  | _, _, .nil, x', h => absurd h (by simp)
  | _, _, .keep hx hs, x', h => by
    rcases List.mem_cons.mp h with rfl | h2
    · exact ⟨_, List.mem_cons_self _ _, hx⟩
    · obtain ⟨x, hx2, hs2⟩ := subShrinks_mem hs h2
      exact ⟨x, List.mem_cons_of_mem _ hx2, hs2⟩
  | _, _, .drop hs, x', h => by
    obtain ⟨x, hx2, hs2⟩ := subShrinks_mem hs h
    exact ⟨x, List.mem_cons_of_mem _ hx2, hs2⟩

mutual
theorem removeAt_shrinks : ∀ (t : FSNode) (rel : List String) (t' : FSNode),
    removeAt t rel = some t' → Shrinks t' t
  | t, [], t' => by intro h; simp [removeAt] at h
  | .file n s m, c :: q, t' => by
    intro h
    simp only [removeAt, Option.some.injEq] at h
    rw [← h]
    exact .file n s m
  | .dir n m l ch, c :: q, t' => by
    intro h
    simp only [removeAt, Option.some.injEq] at h
    rw [← h]
    exact .dir n m l (removeIn_subShrinks ch c q)

theorem removeIn_subShrinks : ∀ (cs : List FSNode) (c : String) (q : List String),
    SubShrinks (removeIn cs c q) cs
  | [], _, _ => .nil
  | x :: xs, c, q => by
    unfold removeIn
    split
    · split
      · exact .drop (subShrinks_refl xs)
      · rename_i t' ht'
        exact .keep (removeAt_shrinks x q t' ht') (subShrinks_refl xs)
    · exact .keep (shrinks_refl x) (removeIn_subShrinks xs c q)
end

/-- Shrinking lifted to the optional target state. -/
def OShrinks : Option FSNode → Option FSNode → Prop
  | none, _ => True
  | some t', some t => Shrinks t' t
  | some _, none => False

theorem oshrinks_refl (st : Option FSNode) : OShrinks st st := by
  cases st with
  | none => trivial
  | some t => exact shrinks_refl t

theorem oshrinks_trans {a b c : Option FSNode} (h1 : OShrinks a b) (h2 : OShrinks b c) :
    OShrinks a c := by
  cases a with
  | none => trivial
  | some ta =>
    cases b with
    | none => exact absurd h1 (by simp [OShrinks])
    | some tb =>
      cases c with
      | none => exact absurd h2 (by simp [OShrinks])
      | some tc => exact shrinks_trans h1 h2

theorem removeAtSt_oshrinks (st : Option FSNode) (rel : List String) :
    OShrinks (removeAtSt st rel) st := by
  cases st with
  | none => trivial
  | some t =>
    show OShrinks (removeAt t rel) (some t)
    cases hr : removeAt t rel with
    | none => trivial
    | some t' => exact removeAt_shrinks t rel t' hr

theorem wfL_cons_intro {x : FSNode} {xs : List FSNode} (h1 : wfN x = true)
    (h2 : ∀ y ∈ xs, nodeName y ≠ nodeName x) (h3 : wfL xs = true) :
    wfL (x :: xs) = true := by
  unfold wfL
  simp only [Bool.and_eq_true, List.all_eq_true]
  exact ⟨⟨h1, fun y hy => by simpa using h2 y hy⟩, h3⟩

mutual
theorem wfN_shrinks : ∀ {a b : FSNode}, Shrinks a b → wfN b = true → wfN a = true
  | _, _, .file n s m, h => h
  | _, _, .dir n m l hsub, h => by
    show wfL _ = true
    exact wfL_subShrinks hsub h

theorem wfL_subShrinks : ∀ {l' l : List FSNode}, SubShrinks l' l →
    wfL l = true → wfL l' = true
  | _, _, .nil, h => h
  | _, _, .keep hx hsub, h => by
    obtain ⟨hwx, hnames, hwl⟩ := wfL_cons h
    refine wfL_cons_intro (wfN_shrinks hx hwx) ?_ (wfL_subShrinks hsub hwl)
    intro y' hy'
    obtain ⟨y, hy, hsy⟩ := subShrinks_mem hsub hy'
    rw [shrinks_name hsy, shrinks_name hx]
    exact hnames y hy
  | _, _, .drop hsub, h => by
    obtain ⟨-, -, hwl⟩ := wfL_cons h
    exact wfL_subShrinks hsub hwl
end

theorem wfSt_oshrinks {st' st : Option FSNode} (h : OShrinks st' st)
    (hwf : wfSt st = true) : wfSt st' = true := by
  cases st' with
  | none => rfl
  | some t' =>
    cases st with
    | none => exact absurd h (by simp [OShrinks])
    | some t => exact wfN_shrinks h hwf

theorem findIn_some_mem : ∀ (cs : List FSNode) (c : String) (q : List String)
    (n : FSNode), findIn cs c q = some n → ∃ y ∈ cs, nodeName y = c := by
  intro cs
  induction cs with
  | nil => intro c q n h; simp [findIn] at h
  | cons x xs ih =>
    intro c q n h
    unfold findIn at h
    split at h
    · exact ⟨x, by simp, by assumption⟩
    · obtain ⟨y, hy, hn⟩ := ih c q n h
      exact ⟨y, by simp [hy], hn⟩

mutual
theorem findNode_shrinks : ∀ {t' t : FSNode}, Shrinks t' t → wfN t = true →
    ∀ (q : List String) (n' : FSNode), findNode t' q = some n' →
      ∃ n, findNode t q = some n ∧ Shrinks n' n
  | _, _, .file nm s m, hwf, q, n' => by
    intro h
    cases q with
    | nil =>
      simp only [findNode, Option.some.injEq] at h
      exact ⟨.file nm s m, rfl, h ▸ .file nm s m⟩
    | cons c q' => simp [findNode] at h
  | _, _, .dir nm m l hsub, hwf, q, n' => by
    intro h
    cases q with
    | nil =>
      simp only [findNode, Option.some.injEq] at h
      exact ⟨_, rfl, h ▸ .dir nm m l hsub⟩
    | cons c q' =>
      simp only [findNode] at h ⊢
      exact findIn_shrinks hsub hwf c q' n' h

theorem findIn_shrinks : ∀ {l' l : List FSNode}, SubShrinks l' l → wfL l = true →
    ∀ (c : String) (q : List String) (n' : FSNode), findIn l' c q = some n' →
      ∃ n, findIn l c q = some n ∧ Shrinks n' n
  | _, _, .nil, hwf, c, q, n' => by intro h; simp [findIn] at h
  | _, _, @SubShrinks.keep x' x ls' ls hx hsub, hwf, c, q, n' => by
    intro h
    obtain ⟨hwx, hnames, hwl⟩ := wfL_cons hwf
    by_cases hc : nodeName x' = c
    · rw [show findIn (x' :: ls') c q = findNode x' q from by
        unfold findIn; rw [if_pos hc]] at h
      obtain ⟨n, hn, hs⟩ := findNode_shrinks hx hwx q n' h
      refine ⟨n, ?_, hs⟩
      unfold findIn
      rw [if_pos (by rw [← shrinks_name hx]; exact hc)]
      exact hn
    · rw [show findIn (x' :: ls') c q = findIn ls' c q from by
        conv_lhs => unfold findIn
        rw [if_neg hc]] at h
      obtain ⟨n, hn, hs⟩ := findIn_shrinks hsub hwl c q n' h
      refine ⟨n, ?_, hs⟩
      unfold findIn
      rw [if_neg (by rw [← shrinks_name hx]; exact hc)]
      exact hn
  | _, _, .drop hsub, hwf, c, q, n' => by
    intro h
    obtain ⟨hwx, hnames, hwl⟩ := wfL_cons hwf
    obtain ⟨n, hn, hs⟩ := findIn_shrinks hsub hwl c q n' h
    unfold findIn
    split
    · rename_i hcx
      obtain ⟨y, hy, hyn⟩ := findIn_some_mem _ c q n hn
      exact absurd (hyn.trans hcx.symm) (hnames y hy)
    · exact ⟨n, hn, hs⟩
end

theorem findSt_shrinks {st' st : Option FSNode} (h : OShrinks st' st)
    (hwf : wfSt st = true) {q : List String} {n' : FSNode} :
    findSt st' q = some n' → ∃ n, findSt st q = some n ∧ Shrinks n' n := by
  intro hfind
  cases st' with
  | none => simp [findSt] at hfind
  | some t' =>
    cases st with
    | none => exact absurd h (by simp [OShrinks])
    | some t => exact findNode_shrinks h hwf q n' hfind

theorem findSt_none_shrinks {st' st : Option FSNode} (h : OShrinks st' st)
    (hwf : wfSt st = true) {q : List String} (hnone : findSt st q = none) :
    findSt st' q = none := by
  cases hres : findSt st' q with
  | none => rfl
  | some n' =>
    obtain ⟨n, hn, -⟩ := findSt_shrinks h hwf hres
    rw [hn] at hnone
    simp at hnone

/-- Final state of a loop result. -/
def resState : LoopRes → Option FSNode
  | .ok st _ => st
  | .fatal st _ _ => st

theorem delFiles_oshrinks (silent : Bool) (fails : List String → Bool) :
    ∀ (l : List (List String)) (st : Option FSNode) (acc : List (List String)),
      OShrinks (resState (delFiles silent fails st acc l)) st := by
  intro l
  induction l with
  | nil => intro st acc; exact oshrinks_refl st
  | cons f rest ih =>
    intro st acc
    unfold delFiles
    cases hf : fails f with
    | false =>
      simp only [Bool.false_eq_true, if_false]
      exact oshrinks_trans (ih (removeAtSt st f) (acc ++ [f])) (removeAtSt_oshrinks st f)
    | true =>
      simp only [if_true]
      cases silent with
      | true => simpa using ih st acc
      | false => exact oshrinks_refl st

theorem dirStep_oshrinks (force silent : Bool) (fails : List String → Bool)
    (st : Option FSNode) (d : List String) :
    OShrinks (dirStep force silent fails st d).2 st := by
  unfold dirStep
  split
  · exact oshrinks_refl st
  · split
    · split
      · split
        · exact oshrinks_refl st
        · exact oshrinks_refl st
      · split
        · exact removeAtSt_oshrinks st d
        · exact removeAtSt_oshrinks st d
    · exact oshrinks_refl st

theorem delDirs_oshrinks (force silent : Bool) (fails : List String → Bool) :
    ∀ (l : List (List String)) (st : Option FSNode) (acc : List (List String)),
      OShrinks (resState (delDirs force silent fails st acc l)) st := by
  intro l
  induction l with
  | nil => intro st acc; exact oshrinks_refl st
  | cons d rest ih =>
    intro st acc
    have hstate : OShrinks (dirStep force silent fails st d).2 st :=
      dirStep_oshrinks force silent fails st d
    unfold delDirs
    rcases hstep : dirStep force silent fails st d with ⟨a, st2⟩
    rw [hstep] at hstate
    cases a with
    | failFatal => exact hstate
    | skipMissing => exact oshrinks_trans (ih st2 acc) hstate
    | skipNotEmpty => exact oshrinks_trans (ih st2 acc) hstate
    | failSilent => exact oshrinks_trans (ih st2 acc) hstate
    | removeLink => exact oshrinks_trans (ih st2 (acc ++ [d])) hstate
    | removeTree => exact oshrinks_trans (ih st2 (acc ++ [d])) hstate

theorem dirStep_record_state {force silent : Bool} {fails : List String → Bool}
    {st st2 : Option FSNode} {d : List String} {a : DirAction}
    (h : dirStep force silent fails st d = (a, st2)) (hr : recordsDel a = true) :
    st2 = removeAtSt st d := by
  unfold dirStep at h
  split at h
  · cases h; simp [recordsDel] at hr
  · split at h
    · split at h
      · split at h
        · cases h; simp [recordsDel] at hr
        · cases h; simp [recordsDel] at hr
      · split at h
        · cases h; rfl
        · cases h; rfl
    · cases h; simp [recordsDel] at hr

theorem delFiles_recorded_absent (silent : Bool) (fails : List String → Bool) :
    ∀ (l : List (List String)) (st : Option FSNode) (acc : List (List String))
      (st' : Option FSNode) (acc' : List (List String)),
      wfSt st = true → delFiles silent fails st acc l = .ok st' acc' →
      ∀ g ∈ acc', g ∈ acc ∨ findSt st' g = none := by
  intro l
  induction l with
  | nil =>
    intro st acc st' acc' _ h g hg
    unfold delFiles at h
    cases h
    exact Or.inl hg
  | cons f rest ih =>
    intro st acc st' acc' hwf h g hg
    unfold delFiles at h
    cases hf : fails f with
    | true =>
      rw [hf] at h
      simp only [if_true] at h
      cases silent with
      | true => exact ih st acc st' acc' hwf h g hg
      | false => simp at h
    | false =>
      rw [hf] at h
      simp only [Bool.false_eq_true, if_false] at h
      have hwf2 : wfSt (removeAtSt st f) = true :=
        wfSt_oshrinks (removeAtSt_oshrinks st f) hwf
      rcases ih (removeAtSt st f) (acc ++ [f]) st' acc' hwf2 h g hg with hmem | habs
      · rcases List.mem_append.mp hmem with h1 | h1
        · exact Or.inl h1
        · simp only [List.mem_singleton] at h1
          subst h1
          have hsh : OShrinks st' (removeAtSt st g) := by
            have := delFiles_oshrinks silent fails rest (removeAtSt st g) (acc ++ [g])
            rw [h] at this
            exact this
          exact Or.inr (findSt_none_shrinks hsh hwf2
            (removeAtSt_find_self_none g hwf))
      · exact Or.inr habs

theorem delDirs_recorded_absent (force silent : Bool) (fails : List String → Bool) :
    ∀ (l : List (List String)) (st : Option FSNode) (acc : List (List String))
      (st' : Option FSNode) (acc' : List (List String)),
      wfSt st = true → delDirs force silent fails st acc l = .ok st' acc' →
      ∀ g ∈ acc', g ∈ acc ∨ findSt st' g = none := by
  intro l
  induction l with
  | nil =>
    intro st acc st' acc' _ h g hg
    unfold delDirs at h
    cases h
    exact Or.inl hg
  | cons d rest ih =>
    intro st acc st' acc' hwf h g hg
    unfold delDirs at h
    rcases hstep : dirStep force silent fails st d with ⟨a, st2⟩
    rw [hstep] at h
    have hwf2 : wfSt st2 = true := by
      have := dirStep_oshrinks force silent fails st d
      rw [hstep] at this
      exact wfSt_oshrinks this hwf
    cases a with
    | failFatal => simp at h
    | skipMissing =>
      exact ih st2 acc st' acc' hwf2 (by simpa [recordsDel] using h) g hg
    | skipNotEmpty =>
      exact ih st2 acc st' acc' hwf2 (by simpa [recordsDel] using h) g hg
    | failSilent =>
      exact ih st2 acc st' acc' hwf2 (by simpa [recordsDel] using h) g hg
    | removeLink =>
      have hst2 : st2 = removeAtSt st d := dirStep_record_state hstep rfl
      rcases ih st2 (acc ++ [d]) st' acc' hwf2 (by simpa [recordsDel] using h) g hg with
        hmem | habs
      · rcases List.mem_append.mp hmem with h1 | h1
        · exact Or.inl h1
        · simp only [List.mem_singleton] at h1
          subst h1
          have hsh : OShrinks st' st2 := by
            have := delDirs_oshrinks force silent fails rest st2 (acc ++ [g])
            rw [show delDirs force silent fails st2 (acc ++ [g]) rest = .ok st' acc' from by
              simpa [recordsDel] using h] at this
            exact this
          refine Or.inr (findSt_none_shrinks hsh hwf2 ?_)
          rw [hst2]
          exact removeAtSt_find_self_none g hwf
      · exact Or.inr habs
    | removeTree =>
      have hst2 : st2 = removeAtSt st d := dirStep_record_state hstep rfl
      rcases ih st2 (acc ++ [d]) st' acc' hwf2 (by simpa [recordsDel] using h) g hg with
        hmem | habs
      · rcases List.mem_append.mp hmem with h1 | h1
        · exact Or.inl h1
        · simp only [List.mem_singleton] at h1
          subst h1
          have hsh : OShrinks st' st2 := by
            have := delDirs_oshrinks force silent fails rest st2 (acc ++ [g])
            rw [show delDirs force silent fails st2 (acc ++ [g]) rest = .ok st' acc' from by
              simpa [recordsDel] using h] at this
            exact this
          refine Or.inr (findSt_none_shrinks hsh hwf2 ?_)
          rw [hst2]
          exact removeAtSt_find_self_none g hwf
      · exact Or.inr habs

theorem dirPass_shrinks {crit : Crit} {now : Int} {a b : FSNode} (h : Shrinks a b) :
    dirPass crit now a = dirPass crit now b := by
  unfold dirPass
  rw [shrinks_name h, shrinks_meta h]

theorem filePass_shrinks {crit : Crit} {now : Int} {a b : FSNode} (h : Shrinks a b) :
    filePass crit now a = filePass crit now b := by
  unfold filePass
  rw [shrinks_name h, shrinks_meta h, shrinks_size h]

theorem walkVisits_subShrinks {r : Bool} :
    ∀ {cs' : List FSNode} {rel : List String} {x' : FSNode},
      WalkVisits r cs' rel x' → ∀ {cs : List FSNode}, SubShrinks cs' cs →
      ∃ x, WalkVisits r cs rel x ∧ Shrinks x' x := by
  intro cs' rel x' hv
  induction hv with
  | here hx =>
    intro cs hsub
    obtain ⟨x, hmem, hs⟩ := subShrinks_mem hsub hx
    refine ⟨x, ?_, hs⟩
    rw [shrinks_name hs]
    exact .here hmem
  | child hmem hr hsubv ih =>
    intro cs hsub
    obtain ⟨y, hy, hsy⟩ := subShrinks_mem hsub hmem
    obtain ⟨ch2, rfl, hsub2⟩ := shrinks_dir_left hsy
    obtain ⟨x, hv2, hs2⟩ := ih hsub2
    exact ⟨x, .child hy hr hv2, hs2⟩

theorem findIn_exists_of_name : ∀ (cs : List FSNode) (c : String),
    (∃ x ∈ cs, nodeName x = c) → ∃ y, findIn cs c [] = some y := by
  intro cs
  induction cs with
  | nil => intro c h; simp at h
  | cons z zs ih =>
    intro c h
    unfold findIn
    by_cases hz : nodeName z = c
    · rw [if_pos hz]
      exact ⟨z, by simp [findNode]⟩
    · rw [if_neg hz]
      obtain ⟨x, hx, hxc⟩ := h
      rcases List.mem_cons.mp hx with rfl | hx2
      · exact absurd hxc hz
      · exact ih c ⟨x, hx2, hxc⟩

theorem wfL_mem : ∀ {cs : List FSNode}, wfL cs = true → ∀ {x : FSNode}, x ∈ cs →
    wfN x = true := by
  intro cs
  induction cs with
  | nil => intro _ x hx; simp at hx
  | cons z zs ih =>
    intro hwf x hx
    obtain ⟨hwz, -, hwzs⟩ := wfL_cons hwf
    rcases List.mem_cons.mp hx with rfl | hx2
    · exact hwz
    · exact ih hwzs hx2

theorem wf_findIn_eq : ∀ {cs : List FSNode}, wfL cs = true → ∀ {x : FSNode}, x ∈ cs →
    ∀ (q : List String), findIn cs (nodeName x) q = findNode x q := by
  intro cs
  induction cs with
  | nil => intro _ x hx; simp at hx
  | cons z zs ih =>
    intro hwf x hx q
    obtain ⟨hwz, hnames, hwzs⟩ := wfL_cons hwf
    unfold findIn
    by_cases hz : nodeName z = nodeName x
    · rw [if_pos hz]
      rcases List.mem_cons.mp hx with rfl | hx2
      · rfl
      · exact absurd hz.symm (hnames x hx2)
    · rw [if_neg hz]
      rcases List.mem_cons.mp hx with rfl | hx2
      · exact absurd rfl hz
      · exact ih hwzs hx2 q

theorem visits_find {r : Bool} :
    ∀ {cs : List FSNode} {rel : List String} {x : FSNode},
      WalkVisits r cs rel x → wfL cs = true →
      ∃ c q y, rel = c :: q ∧ findIn cs c q = some y := by
  intro cs rel x hv
  induction hv with
  | here hx =>
    intro hwf
    obtain ⟨y, hy⟩ := findIn_exists_of_name _ (nodeName _) ⟨_, hx, rfl⟩
    exact ⟨_, [], y, rfl, hy⟩
  | child hmem hr hsubv ih =>
    intro hwf
    have hwch : wfL _ = true := wfL_mem hwf hmem
    obtain ⟨c2, q2, y, rfl, hfind⟩ := ih hwch
    refine ⟨_, _, y, rfl, ?_⟩
    have heq := wf_findIn_eq hwf hmem (c2 :: q2)
    simp only [nodeName] at heq
    rw [heq]
    simpa [findNode] using hfind

theorem cands_transfer {crit : Crit} {now : Int} {st2 st : Option FSNode}
    (h : OShrinks st2 st) :
    (∀ rel, rel ∈ (selectCands crit now st2).1 → rel ∈ (selectCands crit now st).1)
    ∧ (∀ rel, rel ∈ (selectCands crit now st2).2 → rel ∈ (selectCands crit now st).2) := by
  cases st2 with
  | none =>
    constructor <;> intro rel hrel <;> simp [selectCands] at hrel
  | some t2 =>
    cases st with
    | none => exact absurd h (by simp [OShrinks])
    | some t =>
      cases t2 with
      | file n s m =>
        have ht : t = .file n s m := shrinks_file_left h
        subst ht
        exact ⟨fun rel hrel => hrel, fun rel hrel => hrel⟩
      | dir n m l ch2 =>
        obtain ⟨ch, rfl, hsub⟩ := shrinks_dir_left h
        constructor
        · intro rel hrel
          have hrel2 : rel ∈ (walkRel crit now ch2).1 := hrel
          obtain ⟨x', hv, hdir, hpass⟩ := (walkRel_mem_dirs crit now ch2 rel).mp hrel2
          obtain ⟨x, hv2, hs⟩ := walkVisits_subShrinks hv hsub
          show rel ∈ (walkRel crit now ch).1
          exact (walkRel_mem_dirs crit now ch rel).mpr
            ⟨x, hv2, (shrinks_isDir hs) ▸ hdir, (dirPass_shrinks hs) ▸ hpass⟩
        · intro rel hrel
          have hrel2 : rel ∈ (walkRel crit now ch2).2 := hrel
          obtain ⟨x', hv, hf, hpass⟩ := (walkRel_mem_files crit now ch2 rel).mp hrel2
          obtain ⟨x, hv2, hs⟩ := walkVisits_subShrinks hv hsub
          show rel ∈ (walkRel crit now ch).2
          exact (walkRel_mem_files crit now ch rel).mpr
            ⟨x, hv2, (shrinks_isFile hs) ▸ hf, (filePass_shrinks hs) ▸ hpass⟩

theorem cands_present {crit : Crit} {now : Int} {st2 : Option FSNode}
    (hwf : wfSt st2 = true) :
    (∀ rel, rel ∈ (selectCands crit now st2).1 → findSt st2 rel ≠ none)
    ∧ (∀ rel, rel ∈ (selectCands crit now st2).2 → findSt st2 rel ≠ none) := by
  cases st2 with
  | none => constructor <;> intro rel hrel <;> simp [selectCands] at hrel
  | some t2 =>
    cases t2 with
    | file n s m =>
      have hsel : selectCands crit now (some (.file n s m)) =
          (if pfilter (basename crit.path) crit.matchPats &&
              agefilter now m crit.age crit.timestamp && sizefilter s crit.size
            then ([], [[]]) else ([], [])) := rfl
      constructor
      · intro rel hrel
        rw [hsel] at hrel
        by_cases hp : (pfilter (basename crit.path) crit.matchPats &&
            agefilter now m crit.age crit.timestamp && sizefilter s crit.size) = true
        · rw [if_pos hp] at hrel
          simp at hrel
        · rw [if_neg hp] at hrel
          simp at hrel
      · intro rel hrel
        rw [hsel] at hrel
        by_cases hp : (pfilter (basename crit.path) crit.matchPats &&
            agefilter now m crit.age crit.timestamp && sizefilter s crit.size) = true
        · rw [if_pos hp] at hrel
          simp only [List.mem_singleton] at hrel
          subst hrel
          simp [findSt, findNode]
        · rw [if_neg hp] at hrel
          simp at hrel
    | dir n m l ch2 =>
      have hwch : wfL ch2 = true := by simpa [wfSt, wfN] using hwf
      constructor
      · intro rel hrel
        have hrel2 : rel ∈ (walkRel crit now ch2).1 := hrel
        obtain ⟨x, hv, -, -⟩ := (walkRel_mem_dirs crit now ch2 rel).mp hrel2
        obtain ⟨c, q, y, rfl, hfind⟩ := visits_find hv hwch
        simp [findSt, findNode, hfind]
      · intro rel hrel
        have hrel2 : rel ∈ (walkRel crit now ch2).2 := hrel
        obtain ⟨x, hv, -, -⟩ := (walkRel_mem_files crit now ch2 rel).mp hrel2
        obtain ⟨c, q, y, rfl, hfind⟩ := visits_find hv hwch
        simp [findSt, findNode, hfind]

/-! ## Claim C8: idempotence -/

/-- C8: if a first apply-mode run over a well-formed tree succeeds and
deletes all entries matching the criteria (its file loop records exactly the
full sorted file candidates, its directory loop exactly the full sorted
directory candidates), then the first run ends in the success outcome, and a
second run with identical parameters over the resulting filesystem state
finds no candidates at all and succeeds with `changed = false` and empty
deletion lists, leaving the state untouched. -/
theorem c8_idempotent (crit : Crit) (now : Int) (st st1 st2 : Option FSNode)
    (fails fails2 : List String → Bool) (errs errs2 : List String → String)
    (hwf : wfSt st = true)
    (h1 : delFiles crit.silent fails st [] (sortedFileCands crit now st)
      = .ok st1 (sortedFileCands crit now st))
    (h2 : delDirs crit.force crit.silent fails st1 [] (sortedDirCands crit now st)
      = .ok st2 (sortedDirCands crit now st)) :
    applyCore crit now false st fails errs
      = (.ok ((sortedFileCands crit now st).map (renderPath crit.path))
          ((sortedDirCands crit now st).map (renderPath crit.path))
          (decide (sortedFileCands crit now st ≠ [] ∨ sortedDirCands crit now st ≠ [])),
        st2)
    ∧ selectCands crit now st2 = ([], [])
    ∧ applyCore crit now false st2 fails2 errs2 = (.ok [] [] false, st2) := by
  have hsh1 : OShrinks st1 st := by
    have := delFiles_oshrinks crit.silent fails (sortedFileCands crit now st) st []
    rw [h1] at this
    exact this
  have hwf1 : wfSt st1 = true := wfSt_oshrinks hsh1 hwf
  have hsh2 : OShrinks st2 st1 := by
    have := delDirs_oshrinks crit.force crit.silent fails (sortedDirCands crit now st) st1 []
    rw [h2] at this
    exact this
  have hwf2 : wfSt st2 = true := wfSt_oshrinks hsh2 hwf1
  have hsh : OShrinks st2 st := oshrinks_trans hsh2 hsh1
  have hfabs : ∀ f ∈ sortedFileCands crit now st, findSt st2 f = none := by
    intro f hf
    rcases delFiles_recorded_absent crit.silent fails (sortedFileCands crit now st)
      st [] st1 (sortedFileCands crit now st) hwf h1 f hf with h | h
    · simp at h
    · exact findSt_none_shrinks hsh2 hwf1 h
  have hdabs : ∀ d ∈ sortedDirCands crit now st, findSt st2 d = none := by
    intro d hd
    rcases delDirs_recorded_absent crit.force crit.silent fails
      (sortedDirCands crit now st) st1 [] st2 (sortedDirCands crit now st)
      hwf1 h2 d hd with h | h
    · simp at h
    · exact h
  have hc2 : selectCands crit now st2 = ([], []) := by
    have e1 : (selectCands crit now st2).1 = [] := by
      rw [List.eq_nil_iff_forall_not_mem]
      intro rel hrel
      have hmem := (cands_transfer hsh).1 rel hrel
      have hsorted : rel ∈ sortedDirCands crit now st :=
        (sortedDirCands_mem crit now st rel).mpr hmem
      exact (cands_present hwf2).1 rel hrel (hdabs rel hsorted)
    have e2 : (selectCands crit now st2).2 = [] := by
      rw [List.eq_nil_iff_forall_not_mem]
      intro rel hrel
      have hmem := (cands_transfer hsh).2 rel hrel
      have hsorted : rel ∈ sortedFileCands crit now st :=
        (sortedFileCands_mem crit now st rel).mpr hmem
      exact (cands_present hwf2).2 rel hrel (hfabs rel hsorted)
    rw [show ((selectCands crit now st2)) = ((selectCands crit now st2).1,
      (selectCands crit now st2).2) from rfl, e1, e2]
  have hsorted2f : sortedFileCands crit now st2 = [] := by
    unfold sortedFileCands
    rw [hc2]
    rfl
  have hsorted2d : sortedDirCands crit now st2 = [] := by
    unfold sortedDirCands
    rw [hc2]
    split <;> rfl
  refine ⟨?_, hc2, ?_⟩
  · unfold applyCore
    rw [if_neg (by simp)]
    rw [h1]
    dsimp only
    rw [h2]
  · unfold applyCore
    rw [if_neg (by simp)]
    rw [hsorted2f, hsorted2d]
    simp [delFiles, delDirs]

/-- Concrete inputs for the C8 witness: one matching file under "/t". -/
def critC8 : Crit :=
  { path := "/t", age := 0, size := 0, matchPats := none, recurse := false,
    rmdirs := false, force := false, silent := false, timestamp := .atime }

def stC8 : Option FSNode := some (.dir "t" metaZero false [.file "f1" 7 metaZero])

def stC8after : Option FSNode := some (.dir "t" metaZero false [])

/-- Witness for C8 at a concrete input: after the first run deleted the only
candidate, the second run reports no change. -/
theorem c8_idempotent_witness :
    applyCore critC8 0 false stC8after (fun _ => false) (fun _ => "")
      = (.ok [] [] false, stC8after) :=
  (c8_idempotent critC8 0 stC8 stC8after stC8after (fun _ => false) (fun _ => false)
    (fun _ => "") (fun _ => "")
    (by simp [stC8, wfSt, wfN, wfL, nodeName, metaZero])
    (by simp [stC8, stC8after, critC8, sortedFileCands, sortedDirCands, selectCands,
      walkRel, walkSubs, classifyList, dirPass, filePass, pfilter, agefilter,
      sizefilter, sortBy, insertLe, relLe, strLe, charsLe, renderPath, metaZero,
      nodeName, delFiles, removeAtSt, removeAt, removeIn])
    (by simp [stC8, stC8after, critC8, sortedFileCands, sortedDirCands, selectCands,
      walkRel, walkSubs, classifyList, dirPass, filePass, pfilter, agefilter,
      sizefilter, sortBy, insertLe, relLe, strLe, charsLe, renderPath, metaZero,
      nodeName, delDirs, removeAtSt, removeAt, removeIn])).2.2

end Tidy
